import Mathlib

/-!
Verification of the character-input abstraction layer of a streaming YAML
parser (files `src/input.rs`, `src/input/str.rs`, `src/input/buffered.rs`).

The embedding is a shallow one:
* A Rust `&str` buffer is modelled as a `List Char` together with the UTF-8
  byte sequence `utf8Bytes` it denotes (byte-level fast paths in
  `src/input/str.rs` operate on `self.buffer.as_bytes()`).
* A Rust iterator of chars is modelled as a `List Char`.
* Operations that can panic in Rust (out-of-bounds indexing, `unwrap`,
  slicing a `&str` at a non-boundary byte offset) return `Option`; `none`
  models the panic.
-/

/-! ## Character-class predicates

Modelled from the spec: the repository's `char_traits` module is not part of
the given sources; §3 of the spec defines the character classes as pure
functions over one character — blank (space, tab), break (LF, CR), breakz
(break or NUL), z (NUL), flow (`,`, `[`, `]`, `{`, `}`), digit, alpha
(URI-safe: letters, digits, `-`, `_`), blank-or-breakz. -/

/-- Modelled from the spec: blank is space or tab. -/
def is_blank (c : Char) : Bool :=
  c == ' ' || c == '\t'

/-- Modelled from the spec: break is LF or CR. -/
def is_break (c : Char) : Bool :=
  c == '\n' || c == '\r'

/-- Modelled from the spec: breakz is a break or NUL. -/
def is_breakz (c : Char) : Bool :=
  is_break c || c == '\x00'

/-- Modelled from the spec: z is NUL. -/
def is_z (c : Char) : Bool :=
  c == '\x00'

/-- Modelled from the spec: blank-or-breakz. -/
def is_blank_or_breakz (c : Char) : Bool :=
  is_blank c || is_breakz c

/-- Modelled from the spec: flow indicator characters. -/
def is_flow (c : Char) : Bool :=
  c == ',' || c == '[' || c == ']' || c == '{' || c == '}'

/-- Modelled from the spec: ASCII digit. -/
def is_digit (c : Char) : Bool :=
  '0' ≤ c && c ≤ '9'

/-- Modelled from the spec: URI-safe alphanumeric — letters, digits, `-`, `_`. -/
def is_alpha (c : Char) : Bool :=
  ('0' ≤ c && c ≤ '9') || ('a' ≤ c && c ≤ 'z') || ('A' ≤ c && c ≤ 'Z')
    || c == '-' || c == '_'

/-! ## UTF-8 byte model

A Rust `&str` is UTF-8 by language definition.  `utf8EncodeChar` produces the
byte sequence of one scalar value (written with `/` and `%` on `Nat`, which
agrees with the bit-level definition since the or-ed bit ranges are
disjoint), and `utf8Bytes` the byte sequence of a buffer. -/

/-- UTF-8 encoding of a single Unicode scalar value, as a list of byte values. -/
def utf8EncodeChar (c : Char) : List Nat :=
  if c.toNat < 0x80 then [c.toNat]
  else if c.toNat < 0x800 then [0xC0 + c.toNat / 64, 0x80 + c.toNat % 64]
  else if c.toNat < 0x10000 then
    [0xE0 + c.toNat / 4096, 0x80 + c.toNat / 64 % 64, 0x80 + c.toNat % 64]
  else
    [0xF0 + c.toNat / 262144, 0x80 + c.toNat / 4096 % 64, 0x80 + c.toNat / 64 % 64,
      0x80 + c.toNat % 64]

/-- UTF-8 bytes of a character buffer (the `as_bytes()` view of a `&str`). -/
def utf8Bytes : List Char → List Nat
  | [] => []
  | c :: rest => utf8EncodeChar c ++ utf8Bytes rest

/-- Byte length of the UTF-8 form of a buffer (Rust `str::len`). -/
def utf8Len (l : List Char) : Nat :=
  (utf8Bytes l).length

/-- Advancing a `&str` by `n` bytes (Rust slicing `&s[n..]`): `none` models the
panic when `n` overruns the string or falls inside a multi-byte character. -/
def dropBytes : Nat → List Char → Option (List Char)
  | 0, l => some l
  | _ + 1, [] => none
  | n + 1, c :: rest =>
    if (utf8EncodeChar c).length ≤ n + 1 then
      dropBytes (n + 1 - (utf8EncodeChar c).length) rest
    else
      none

/-! ## StrInput (src/input/str.rs)

State of `StrInput`: the remaining input slice and the logical lookahead
counter.  The Rust field is also named `lookahead`; here it is
`lookaheadCount` because the method of the same name needs the plain name. -/

structure StrInput where
  buffer : List Char
  lookaheadCount : Nat
  deriving Repr, DecidableEq

/-- Loop of `split_first_char` scans (used by `StrInput::skip_until`):
returns the number of characters before the first one satisfying `f`, and the
rest of the buffer starting at that character. -/
def skipUntilChars (f : Char → Bool) : List Char → Nat × List Char
  | [] => (0, [])
  | c :: rest =>
    if f c then (0, c :: rest)
    else
      let r := skipUntilChars f rest
      (r.1 + 1, r.2)

/-- Loop of `StrInput::read_until`: like `skipUntilChars` but also returns the
consumed prefix (the slice `&self.buffer[..byte_count]` that is pushed into
`out`). -/
def readUntilChars (f : Char → Bool) : List Char → Nat × List Char × List Char
  | [] => (0, [], [])
  | c :: rest =>
    if f c then (0, [], c :: rest)
    else
      let r := readUntilChars f rest
      (r.1 + 1, c :: r.2.1, r.2.2)

/-- Loop of `StrInput::peek_nth`: advance `n` characters (NUL when the buffer
runs out), then return the next character (NUL when absent). -/
def peekNthChars : List Char → Nat → Char
  | [], _ => '\x00'
  | c :: _, 0 => c
  | _ :: rest, n + 1 => peekNthChars rest n

/-- Byte loop of `StrInput::skip_ascii_until`: number of leading bytes whose
`as char` cast does not satisfy `f`. -/
def asciiBytesLoop (f : Char → Bool) : List Nat → Nat
  | [] => 0
  | b :: rest =>
    if f (Char.ofNat b) then 0 else asciiBytesLoop f rest + 1

/-- Byte loop of `StrInput::skip_while_blank`: number of leading blank bytes. -/
def blankBytesLoop : List Nat → Nat
  | [] => 0
  | b :: rest =>
    if is_blank (Char.ofNat b) then blankBytesLoop rest + 1 else 0

/-- Loop of `StrInput::skip_while_non_breakz`: count characters up to the
first breakz; the breakz character is put back (the `extend_left` step). -/
def skipNonBreakzChars : List Char → Nat × List Char
  | [] => (0, [])
  | c :: rest =>
    if is_breakz c then (0, c :: rest)
    else
      let r := skipNonBreakzChars rest
      (r.1 + 1, r.2)

/-- Loop of `StrInput::fetch_while_is_alpha`: split the buffer at the first
non-alpha character (which stays in the remaining part). -/
def fetchAlphaChars : List Char → List Char × List Char
  | [] => ([], [])
  | c :: rest =>
    if is_alpha c then
      let r := fetchAlphaChars rest
      (c :: r.1, r.2)
    else ([], c :: rest)

namespace StrInput

/-- Declared buffer size of `StrInput` (`BUFFER_LEN` in src/input/str.rs). -/
def BUFFER_LEN : Nat := 128

/-- Create a `StrInput` over a string (`StrInput::new`). -/
def new (s : List Char) : StrInput :=
  { buffer := s, lookaheadCount := 0 }

/-- `StrInput::lookahead`: only records the largest request. -/
def lookahead (st : StrInput) (x : Nat) : StrInput :=
  { st with lookaheadCount := max st.lookaheadCount x }

/-- `StrInput::buflen`. -/
def buflen (st : StrInput) : Nat :=
  st.lookaheadCount

/-- `StrInput::bufmaxlen`. -/
def bufmaxlen (_st : StrInput) : Nat :=
  BUFFER_LEN

/-- `StrInput::skip_until`. -/
def skip_until (st : StrInput) (f : Char → Bool) : Nat × StrInput :=
  let r := skipUntilChars f st.buffer
  (r.1, { st with buffer := r.2 })

/-- `StrInput::skip_ascii_until` (byte-level override); `none` models the
panic of slicing at a non-boundary offset. -/
def skip_ascii_until (st : StrInput) (f : Char → Bool) : Option (Nat × StrInput) :=
  let n := asciiBytesLoop f (utf8Bytes st.buffer)
  (dropBytes n st.buffer).map fun r => (n, { st with buffer := r })

/-- `StrInput::read_until`: returns the count, the new state and the new
content of `out`. -/
def read_until (st : StrInput) (f : Char → Bool) (out : List Char) :
    Nat × StrInput × List Char :=
  let r := readUntilChars f st.buffer
  (r.1, { st with buffer := r.2.2 }, out ++ r.2.1)

/-- `StrInput::skip`. -/
def skip (st : StrInput) : StrInput :=
  match st.buffer with
  | [] => st
  | _ :: rest => { st with buffer := rest }

/-- `StrInput::skip_n`. -/
def skip_n (st : StrInput) (count : Nat) : StrInput :=
  { st with buffer := st.buffer.drop count }

/-- `StrInput::peek`. -/
def peek (st : StrInput) : Char :=
  st.buffer.headD '\x00'

/-- `StrInput::peek_nth`. -/
def peek_nth (st : StrInput) (n : Nat) : Char :=
  peekNthChars st.buffer n

/-- `StrInput::next_2_are`. -/
def next_2_are (st : StrInput) (c1 c2 : Char) : Bool :=
  match st.buffer with
  | a :: b :: _ => a == c1 && b == c2
  | _ => false

/-- `StrInput::next_3_are`. -/
def next_3_are (st : StrInput) (c1 c2 c3 : Char) : Bool :=
  match st.buffer with
  | a :: b :: c :: _ => a == c1 && b == c2 && c == c3
  | _ => false

/-- `StrInput::next_is_document_indicator` (byte-level override). -/
def next_is_document_indicator (st : StrInput) : Bool :=
  let bytes := utf8Bytes st.buffer
  if bytes.length < 3 then false
  else
    (bytes.length == 3 || is_blank_or_breakz (Char.ofNat (bytes.getD 3 0)))
      && (bytes.getD 0 0 == 0x2E || bytes.getD 0 0 == 0x2D)
      && bytes.getD 0 0 == bytes.getD 1 0
      && bytes.getD 1 0 == bytes.getD 2 0

/-- `StrInput::next_is_document_start` (byte-level override). -/
def next_is_document_start (st : StrInput) : Bool :=
  let bytes := utf8Bytes st.buffer
  if bytes.length < 3 then false
  else
    (bytes.length == 3 || is_blank_or_breakz (Char.ofNat (bytes.getD 3 0)))
      && bytes.getD 0 0 == 0x2D
      && bytes.getD 1 0 == 0x2D
      && bytes.getD 2 0 == 0x2D

/-- `StrInput::next_is_document_end` (byte-level override). -/
def next_is_document_end (st : StrInput) : Bool :=
  let bytes := utf8Bytes st.buffer
  if bytes.length < 3 then false
  else
    (bytes.length == 3 || is_blank_or_breakz (Char.ofNat (bytes.getD 3 0)))
      && bytes.getD 0 0 == 0x2E
      && bytes.getD 1 0 == 0x2E
      && bytes.getD 2 0 == 0x2E

/-- `StrInput::next_can_be_plain_scalar` (byte-level override); `none` models
the panic of indexing `as_bytes()[0]` on an empty buffer. -/
def next_can_be_plain_scalar (st : StrInput) (in_flow : Bool) : Option Bool :=
  match utf8Bytes st.buffer with
  | [] => none
  | c :: rest =>
    some (match rest with
      | nc :: _ =>
        if c == 0x3A
            && (is_blank_or_breakz (Char.ofNat nc) || (in_flow && is_flow (Char.ofNat nc))) then
          false
        else if in_flow && is_flow (Char.ofNat c) then false
        else true
      | [] =>
        if c == 0x3A then false
        else if in_flow && is_flow (Char.ofNat c) then false
        else true)

/-- `StrInput::skip_while_non_breakz`. -/
def skip_while_non_breakz (st : StrInput) : Nat × StrInput :=
  let r := skipNonBreakzChars st.buffer
  (r.1, { st with buffer := r.2 })

/-- `StrInput::skip_while_blank` (byte-level); `none` models the panic of
slicing at a non-boundary offset. -/
def skip_while_blank (st : StrInput) : Option (Nat × StrInput) :=
  let i := blankBytesLoop (utf8Bytes st.buffer)
  (dropBytes i st.buffer).map fun r => (i, { st with buffer := r })

/-- `StrInput::fetch_while_is_alpha`: returns the byte count
`n_bytes_to_append`, the new state, and the new content of `out`. -/
def fetch_while_is_alpha (st : StrInput) (out : List Char) :
    Nat × StrInput × List Char :=
  let r := fetchAlphaChars st.buffer
  (utf8Len r.1, { st with buffer := r.2 }, out ++ r.1)

/-- Default body of `Input::next_is_document_indicator` as it dispatches on
`StrInput` (`assert!(buflen >= 4)` modelled by the `Option` guard; the calls
to `next_3_are` and `peek_nth` resolve to the overrides). -/
def next_is_document_indicator_default (st : StrInput) : Option Bool :=
  if 4 ≤ st.buflen then
    some (is_blank_or_breakz (st.peek_nth 3)
      && (st.next_3_are '.' '.' '.' || st.next_3_are '-' '-' '-'))
  else none

/-- Default body of `Input::next_is_document_start` as it dispatches on
`StrInput`. -/
def next_is_document_start_default (st : StrInput) : Option Bool :=
  if 4 ≤ st.buflen then
    some (st.next_3_are '-' '-' '-' && is_blank_or_breakz (st.peek_nth 3))
  else none

/-- Default body of `Input::next_is_document_end` as it dispatches on
`StrInput`. -/
def next_is_document_end_default (st : StrInput) : Option Bool :=
  if 4 ≤ st.buflen then
    some (st.next_3_are '.' '.' '.' && is_blank_or_breakz (st.peek_nth 3))
  else none

/-- Default body of `Input::next_can_be_plain_scalar` as it dispatches on
`StrInput` (the match-with-guard written as nested conditionals). -/
def next_can_be_plain_scalar_default (st : StrInput) (in_flow : Bool) : Bool :=
  let nc := st.peek_nth 1
  if st.peek == ':' && (is_blank_or_breakz nc || (in_flow && is_flow nc)) then false
  else if in_flow && is_flow st.peek then false
  else true

/-- Default body of `Input::skip_ascii_until`, which delegates to
`skip_until` (the `debug_assert!` wrapper does not change the value). -/
def skip_ascii_until_default (st : StrInput) (f : Char → Bool) : Nat × StrInput :=
  st.skip_until fun c => f c

end StrInput

/-! ## BufferedInput (src/input/buffered.rs)

State of `BufferedInput`: the iterator source (a `List Char`) and the
`ArrayDeque` buffer of capacity `BUFFER_LEN = 16`.  `push_back(..).unwrap()`
panics when the deque is full, and indexing panics out of bounds; both are
modelled by `Option`. -/

structure BufferedInput where
  input : List Char
  buffer : List Char
  deriving Repr, DecidableEq

/-- Loop over `&self.buffer` in `BufferedInput::skip_until` /
`read_until`: number of characters before the first one satisfying `f`,
together with the scanned prefix (pushed into `out` by `read_until`). -/
def scanBufferLoop (f : Char → Bool) : List Char → Nat × List Char
  | [] => (0, [])
  | c :: rest =>
    if f c then (0, [])
    else
      let r := scanBufferLoop f rest
      (r.1 + 1, c :: r.2)

/-- Iterator loop of `BufferedInput::skip_until`: consume from the source
until `f` holds; the stopping character is pushed back into the (empty)
buffer.  Returns (count, new buffer, new source). -/
def skipIterLoop (f : Char → Bool) : List Char → Nat × List Char × List Char
  | [] => (0, [], [])
  | c :: rest =>
    if f c then (0, [c], rest)
    else
      let r := skipIterLoop f rest
      (r.1 + 1, r.2.1, r.2.2)

/-- Iterator loop of `BufferedInput::read_until`: like `skipIterLoop` but
also returns the characters pushed into `out`.
Returns (count, appended, new buffer, new source). -/
def readIterLoop (f : Char → Bool) : List Char → Nat × List Char × List Char × List Char
  | [] => (0, [], [], [])
  | c :: rest =>
    if f c then (0, [], [c], rest)
    else
      let r := readIterLoop f rest
      (r.1 + 1, c :: r.2.1, r.2.2.1, r.2.2.2)

namespace BufferedInput

/-- Capacity of the `ArrayDeque` (`BUFFER_LEN` in src/input/buffered.rs). -/
def BUFFER_LEN : Nat := 16

/-- Create a `BufferedInput` over an iterator (`BufferedInput::new`). -/
def new (l : List Char) : BufferedInput :=
  { input := l, buffer := [] }

/-- `ArrayDeque::push_back` followed by `.unwrap()`: fails when full. -/
def pushBack (st : BufferedInput) (c : Char) : Option BufferedInput :=
  if st.buffer.length < BUFFER_LEN then
    some { st with buffer := st.buffer ++ [c] }
  else none

/-- Loop body of `BufferedInput::lookahead`: push
`self.input.next().unwrap_or('\0')` the given number of times. -/
def lookaheadAux : Nat → BufferedInput → Option BufferedInput
  | 0, st => some st
  | n + 1, st =>
    match st.input with
    | [] => (pushBack st '\x00').bind (lookaheadAux n)
    | c :: rest => (pushBack { st with input := rest } c).bind (lookaheadAux n)

/-- `BufferedInput::lookahead`. -/
def lookahead (st : BufferedInput) (count : Nat) : Option BufferedInput :=
  if count ≤ st.buffer.length then some st
  else lookaheadAux (count - st.buffer.length) st

/-- `BufferedInput::buflen`. -/
def buflen (st : BufferedInput) : Nat :=
  st.buffer.length

/-- `BufferedInput::bufmaxlen`. -/
def bufmaxlen (_st : BufferedInput) : Nat :=
  BUFFER_LEN

/-- `BufferedInput::skip_until`: scan the buffer, drain the scanned prefix,
and when the buffer is exhausted continue on the iterator (pushing the
stopping character back into the now-empty buffer, which cannot fail). -/
def skip_until (st : BufferedInput) (f : Char → Bool) : Nat × BufferedInput :=
  let cc := (scanBufferLoop f st.buffer).1
  let buf := st.buffer.drop cc
  if buf.isEmpty then
    let r := skipIterLoop f st.input
    (cc + r.1, { input := r.2.2, buffer := r.2.1 })
  else (cc, { st with buffer := buf })

/-- Default body of `Input::skip_ascii_until` as it dispatches on
`BufferedInput` (no override: it delegates to `skip_until`; the
`debug_assert!` wrapper does not change the value). -/
def skip_ascii_until (st : BufferedInput) (f : Char → Bool) : Nat × BufferedInput :=
  st.skip_until fun c => f c

/-- `BufferedInput::read_until`. -/
def read_until (st : BufferedInput) (f : Char → Bool) (out : List Char) :
    Nat × BufferedInput × List Char :=
  let s := scanBufferLoop f st.buffer
  let buf := st.buffer.drop s.1
  if buf.isEmpty then
    let r := readIterLoop f st.input
    (s.1 + r.1, { input := r.2.2.2, buffer := r.2.2.1 }, out ++ s.2 ++ r.2.1)
  else (s.1, { st with buffer := buf }, out ++ s.2)

/-- `BufferedInput::skip` (`pop_front` ignores an empty deque). -/
def skip (st : BufferedInput) : BufferedInput :=
  { st with buffer := st.buffer.tail }

/-- `BufferedInput::skip_n` (`drain(0..count)` panics past the length). -/
def skip_n (st : BufferedInput) (count : Nat) : Option BufferedInput :=
  if count ≤ st.buffer.length then
    some { st with buffer := st.buffer.drop count }
  else none

/-- `BufferedInput::peek` (deque indexing panics when empty). -/
def peek (st : BufferedInput) : Option Char :=
  st.buffer.head?

/-- `BufferedInput::peek_nth` (deque indexing panics out of bounds). -/
def peek_nth (st : BufferedInput) (n : Nat) : Option Char :=
  st.buffer[n]?

/-- Not-yet-consumed characters of the stream: buffered characters followed
by the iterator source. -/
def stream (st : BufferedInput) : List Char :=
  st.buffer ++ st.input

end BufferedInput

/-! ## Operation traces

Trace languages for the two inputs, used to state the interface-level
properties (the `Input` layer never fails; `StrInput::buflen` equals the
largest lookahead request so far). -/

/-- One operation on a `BufferedInput`. -/
inductive BOp where
  | lookahead (n : Nat)
  | peek
  | peek_nth (k : Nat)
  | skip
  | skip_n (n : Nat)
  | skip_until (f : Char → Bool)
  | read_until (f : Char → Bool)

/-- Effect of one operation on a `BufferedInput`; `none` models a panic. -/
def BOp.step : BOp → BufferedInput → Option BufferedInput
  | .lookahead n, st => st.lookahead n
  | .peek, st => (st.peek).map fun _ => st
  | .peek_nth k, st => (st.peek_nth k).map fun _ => st
  | .skip, st => some st.skip
  | .skip_n n, st => st.skip_n n
  | .skip_until f, st => some (st.skip_until f).2
  | .read_until f, st => some (st.read_until f []).2.1

/-- Documented precondition of one operation: a lookahead request never
exceeds `bufmaxlen`; `peek`/`peek_nth k` follow a `lookahead` of at least
`k + 1` (so at least that many characters are buffered); `skip_n` only
consumes characters already loaded. -/
def BOp.pre : BOp → BufferedInput → Prop
  | .lookahead n, st => n ≤ st.bufmaxlen
  | .peek, st => 1 ≤ st.buflen
  | .peek_nth k, st => k + 1 ≤ st.buflen
  | .skip, _ => True
  | .skip_n n, st => n ≤ st.buflen
  | .skip_until _, _ => True
  | .read_until _, _ => True

/-- Run a sequence of operations; `none` as soon as one panics. -/
def BOp.exec : List BOp → BufferedInput → Option BufferedInput
  | [], st => some st
  | op :: rest, st =>
    match op.step st with
    | none => none
    | some st' => BOp.exec rest st'

/-- A trace respects the documented preconditions at every step. -/
def BOp.validTrace : List BOp → BufferedInput → Prop
  | [], _ => True
  | op :: rest, st =>
    op.pre st ∧ ∀ st', op.step st = some st' → BOp.validTrace rest st'

/-- One state-changing operation on a `StrInput` (the `&self` accessors do
not change the state and cannot panic in src/input/str.rs). -/
inductive SOp where
  | lookahead (n : Nat)
  | skip
  | skip_n (n : Nat)
  | skip_until (f : Char → Bool)
  | read_until (f : Char → Bool)

/-- Effect of one operation on a `StrInput` (all are total). -/
def SOp.step : SOp → StrInput → StrInput
  | .lookahead n, st => st.lookahead n
  | .skip, st => st.skip
  | .skip_n n, st => st.skip_n n
  | .skip_until f, st => (st.skip_until f).2
  | .read_until f, st => (st.read_until f []).2.1

/-- Run a sequence of operations on a `StrInput`. -/
def SOp.exec : List SOp → StrInput → StrInput
  | [], st => st
  | op :: rest, st => SOp.exec rest (op.step st)

/-- Largest argument passed to `lookahead` in a trace (0 when none). -/
def SOp.maxLookahead : List SOp → Nat
  | [] => 0
  | .lookahead n :: rest => max n (SOp.maxLookahead rest)
  | _ :: rest => SOp.maxLookahead rest

/-! ## Basic facts about the byte model -/

/-- Scalar values are below `0x110000`. -/
theorem char_toNat_lt (c : Char) : c.toNat < 0x110000 := by
  rcases c.valid with h | h
  · exact Nat.lt_trans h (by decide)
  · exact h.2

/-- Characters are determined by their scalar value. -/
theorem char_eq_of_toNat_eq {c d : Char} (h : c.toNat = d.toNat) : c = d := by
  apply Char.eq_of_val_eq
  apply UInt32.eq_of_toBitVec_eq
  apply BitVec.eq_of_toNat_eq
  exact h

/-- Value of `Char.ofNat` at a valid codepoint. -/
theorem char_toNat_ofNat {n : Nat} (h : n.isValidChar) : (Char.ofNat n).toNat = n := by
  simp [Char.ofNat, dif_pos h, Char.ofNatAux, Char.toNat, UInt32.toNat,
    BitVec.toNat_ofNatLt]

/-- Value of `Char.ofNat` below the surrogate range. -/
theorem char_toNat_ofNat_lt {n : Nat} (h : n < 0xd800) : (Char.ofNat n).toNat = n :=
  char_toNat_ofNat (Or.inl h)

/-- An ASCII character encodes as its own single byte. -/
theorem utf8EncodeChar_ascii {c : Char} (h : c.toNat < 0x80) :
    utf8EncodeChar c = [c.toNat] := by
  simp [utf8EncodeChar, h]

/-- The encoding of a character is never empty. -/
theorem utf8EncodeChar_ne_nil (c : Char) : utf8EncodeChar c ≠ [] := by
  unfold utf8EncodeChar
  split <;> simp_all <;> split <;> simp_all
  split <;> simp_all

/-- First byte of the encoding of a character. -/
def headByte (c : Char) : Nat :=
  (utf8EncodeChar c).headD 0

/-- The encoding starts with `headByte`. -/
theorem utf8EncodeChar_eq_headByte_cons (c : Char) :
    ∃ tl, utf8EncodeChar c = headByte c :: tl := by
  cases h : utf8EncodeChar c with
  | nil => exact absurd h (utf8EncodeChar_ne_nil c)
  | cons b tl => exact ⟨tl, by simp [headByte, h]⟩

/-- The head byte of an ASCII character is the character itself. -/
theorem headByte_ascii {c : Char} (h : c.toNat < 0x80) : headByte c = c.toNat := by
  simp [headByte, utf8EncodeChar_ascii h]

/-- The head byte of a non-ASCII character is a lead byte in `[0xC0, 0xF5)`. -/
theorem headByte_nonascii {c : Char} (h : 0x80 ≤ c.toNat) :
    0xC0 ≤ headByte c ∧ headByte c < 0xF5 := by
  have hv := char_toNat_lt c
  unfold headByte utf8EncodeChar
  split
  · omega
  · split
    · rename_i h2
      simp only [List.headD_cons]
      have : c.toNat / 64 < 32 := Nat.div_lt_of_lt_mul (by omega)
      omega
    · split
      · rename_i h3
        simp only [List.headD_cons]
        have : c.toNat / 4096 < 16 := Nat.div_lt_of_lt_mul (by omega)
        omega
      · simp only [List.headD_cons]
        have : c.toNat / 262144 < 5 := Nat.div_lt_of_lt_mul (by omega)
        omega

/-! ## Closed forms of the scanning loops -/

/-- Count of `skipUntilChars` is the length of the maximal false-prefix. -/
theorem skipUntilChars_fst (f : Char → Bool) (l : List Char) :
    (skipUntilChars f l).1 = (l.takeWhile fun c => !f c).length := by
  induction l with
  | nil => rfl
  | cons c rest ih =>
    by_cases h : f c
    · simp [skipUntilChars, h, List.takeWhile_cons]
    · simp [skipUntilChars, h, List.takeWhile_cons, ih]

/-- Remaining buffer of `skipUntilChars` is the drop at the count. -/
theorem skipUntilChars_snd (f : Char → Bool) (l : List Char) :
    (skipUntilChars f l).2 = l.drop (skipUntilChars f l).1 := by
  induction l with
  | nil => rfl
  | cons c rest ih =>
    by_cases h : f c
    · simp [skipUntilChars, h]
    · simp [skipUntilChars, h, ih]

/-- When the count stops before the end, the character at the count
satisfies `f`. -/
theorem skipUntilChars_stop (f : Char → Bool) (l : List Char)
    (h : (skipUntilChars f l).1 < l.length) :
    f (l.getD (skipUntilChars f l).1 '\x00') = true := by
  induction l with
  | nil => simp [skipUntilChars] at h
  | cons c rest ih =>
    by_cases hc : f c
    · simpa [skipUntilChars, hc] using hc
    · simp only [skipUntilChars, hc] at h ⊢
      simpa using ih (by simpa using h)

/-- `readUntilChars` computes the same count as `skipUntilChars`. -/
theorem readUntilChars_fst (f : Char → Bool) (l : List Char) :
    (readUntilChars f l).1 = (skipUntilChars f l).1 := by
  induction l with
  | nil => rfl
  | cons c rest ih =>
    by_cases h : f c
    · simp [readUntilChars, skipUntilChars, h]
    · simp [readUntilChars, skipUntilChars, h, ih]

/-- `readUntilChars` leaves the same remaining buffer as `skipUntilChars`. -/
theorem readUntilChars_snd (f : Char → Bool) (l : List Char) :
    (readUntilChars f l).2.2 = (skipUntilChars f l).2 := by
  induction l with
  | nil => rfl
  | cons c rest ih =>
    by_cases h : f c
    · simp [readUntilChars, skipUntilChars, h]
    · simp [readUntilChars, skipUntilChars, h, ih]

/-- The prefix read by `readUntilChars` is the consumed prefix. -/
theorem readUntilChars_consumed (f : Char → Bool) (l : List Char) :
    (readUntilChars f l).2.1 = l.take (readUntilChars f l).1 := by
  induction l with
  | nil => rfl
  | cons c rest ih =>
    by_cases h : f c
    · simp [readUntilChars, h]
    · simp [readUntilChars, h, ih]

/-- `takeWhile` over an append when the first part stops the scan. -/
theorem takeWhile_append_left {p : Char → Bool} {xs : List Char} (ys : List Char)
    (h : (xs.takeWhile p).length < xs.length) :
    (xs ++ ys).takeWhile p = xs.takeWhile p := by
  induction xs with
  | nil => simp at h
  | cons c rest ih =>
    by_cases hc : p c
    · simp only [List.takeWhile_cons, hc, if_true] at h ⊢
      simp only [List.cons_append, List.takeWhile_cons, hc, if_true]
      rw [ih (by simpa using h)]
    · simp [List.takeWhile_cons, hc]

/-- `takeWhile` over an append when the whole first part passes. -/
theorem takeWhile_append_full {p : Char → Bool} {xs : List Char} (ys : List Char)
    (h : (xs.takeWhile p).length = xs.length) :
    (xs ++ ys).takeWhile p = xs ++ ys.takeWhile p := by
  induction xs with
  | nil => simp
  | cons c rest ih =>
    by_cases hc : p c
    · simp only [List.takeWhile_cons, hc, if_true] at h
      simp only [List.cons_append, List.takeWhile_cons, hc, if_true]
      rw [ih (by simpa using h)]
    · simp [List.takeWhile_cons, hc] at h

/-- At the position where the false-prefix ends, `f` holds. -/
theorem takeWhile_stop (f : Char → Bool) (l : List Char)
    (h : (l.takeWhile fun c => !f c).length < l.length) :
    f (l.getD (l.takeWhile fun c => !f c).length '\x00') = true := by
  rw [← skipUntilChars_fst] at h ⊢
  exact skipUntilChars_stop f l h

/-- Count of the buffer loop of `BufferedInput`. -/
theorem scanBufferLoop_fst (f : Char → Bool) (l : List Char) :
    (scanBufferLoop f l).1 = (l.takeWhile fun c => !f c).length := by
  induction l with
  | nil => rfl
  | cons c rest ih =>
    by_cases h : f c
    · simp [scanBufferLoop, h, List.takeWhile_cons]
    · simp [scanBufferLoop, h, List.takeWhile_cons, ih]

/-- Prefix read by the buffer loop of `BufferedInput`. -/
theorem scanBufferLoop_snd (f : Char → Bool) (l : List Char) :
    (scanBufferLoop f l).2 = l.takeWhile fun c => !f c := by
  induction l with
  | nil => rfl
  | cons c rest ih =>
    by_cases h : f c
    · simp [scanBufferLoop, h, List.takeWhile_cons]
    · simp [scanBufferLoop, h, List.takeWhile_cons, ih]

/-- Closed form of the iterator loop of `BufferedInput::skip_until`. -/
theorem skipIterLoop_spec (f : Char → Bool) (l : List Char) :
    skipIterLoop f l = ((l.takeWhile fun c => !f c).length,
      (l.drop (l.takeWhile fun c => !f c).length).take 1,
      (l.drop (l.takeWhile fun c => !f c).length).drop 1) := by
  induction l with
  | nil => rfl
  | cons c rest ih =>
    by_cases h : f c
    · simp [skipIterLoop, h, List.takeWhile_cons]
    · simp [skipIterLoop, h, List.takeWhile_cons, ih]

/-- Closed form of the iterator loop of `BufferedInput::read_until`. -/
theorem readIterLoop_spec (f : Char → Bool) (l : List Char) :
    readIterLoop f l = ((l.takeWhile fun c => !f c).length,
      l.take (l.takeWhile fun c => !f c).length,
      (l.drop (l.takeWhile fun c => !f c).length).take 1,
      (l.drop (l.takeWhile fun c => !f c).length).drop 1) := by
  induction l with
  | nil => rfl
  | cons c rest ih =>
    by_cases h : f c
    · simp [readIterLoop, h, List.takeWhile_cons]
    · simp [readIterLoop, h, List.takeWhile_cons, ih, List.take_succ_cons]

/-- A `takeWhile` whose length is the full length is the whole list. -/
theorem takeWhile_eq_self_of_length {p : Char → Bool} {l : List Char}
    (h : (l.takeWhile p).length = l.length) : l.takeWhile p = l :=
  (List.takeWhile_prefix p).eq_of_length h

/-- Head of a drop is the element at the index. -/
theorem head?_drop_eq (l : List Char) (n : Nat) : (l.drop n).head? = l[n]? := by
  rw [List.head?_eq_getElem?, List.getElem?_drop, Nat.add_zero]

/-- Specification of `BufferedInput::skip_until` over the whole stream: the
count is the maximal false-prefix of the stream, the remaining stream is the
drop at the count, and the next peek is the head of the remaining stream. -/
theorem BufferedInput.skip_until_spec (st : BufferedInput) (f : Char → Bool) :
    (st.skip_until f).1 = (st.stream.takeWhile fun c => !f c).length ∧
    (st.skip_until f).2.stream = st.stream.drop (st.skip_until f).1 ∧
    (st.skip_until f).2.peek = (st.skip_until f).2.stream.head? := by
  have hle : (st.buffer.takeWhile fun c => !f c).length ≤ st.buffer.length :=
    (List.takeWhile_prefix _).length_le
  by_cases hempty : (st.buffer.drop (scanBufferLoop f st.buffer).1).isEmpty
  · -- the whole buffer was scanned; continue on the iterator
    rw [scanBufferLoop_fst] at hempty
    have hcc : (st.buffer.takeWhile fun c => !f c).length = st.buffer.length := by
      simp only [List.isEmpty_iff, List.drop_eq_nil_iff] at hempty
      omega
    have hstream : st.stream.takeWhile (fun c => !f c)
        = st.buffer ++ st.input.takeWhile fun c => !f c := by
      rw [BufferedInput.stream, takeWhile_append_full _ hcc]
    unfold BufferedInput.skip_until
    rw [scanBufferLoop_fst]
    simp only [hempty, if_true, skipIterLoop_spec]
    refine ⟨?_, ?_, ?_⟩
    · rw [hstream]
      simp [hcc]
    · have e2 : (st.buffer ++ st.input).drop
          ((st.buffer.takeWhile fun c => !f c).length
            + (st.input.takeWhile fun c => !f c).length)
          = st.input.drop (st.input.takeWhile fun c => !f c).length := by
        rw [List.drop_append_eq_append_drop]
        rw [List.drop_eq_nil_of_le (by omega), List.nil_append]
        congr 1
        omega
      simp only [BufferedInput.stream]
      rw [List.take_append_drop, e2]
    · simp only [BufferedInput.stream, BufferedInput.peek]
      cases h : (st.input.drop (st.input.takeWhile fun c => !f c).length) with
      | nil => simp [h]
      | cons a t => simp [h]
  · -- the scan stopped inside the buffer
    rw [scanBufferLoop_fst] at hempty
    have hlt : (st.buffer.takeWhile fun c => !f c).length < st.buffer.length := by
      simp only [List.isEmpty_iff, List.drop_eq_nil_iff] at hempty
      omega
    have hstream : st.stream.takeWhile (fun c => !f c) = st.buffer.takeWhile fun c => !f c := by
      rw [BufferedInput.stream, takeWhile_append_left _ hlt]
    unfold BufferedInput.skip_until
    rw [scanBufferLoop_fst]
    simp only [hempty, if_false, Bool.false_eq_true]
    refine ⟨by rw [hstream], ?_, ?_⟩
    · simp only [BufferedInput.stream, hstream]
      rw [List.drop_append_eq_append_drop]
      simp [Nat.sub_eq_zero_of_le (Nat.le_of_lt hlt)]
    · simp only [BufferedInput.stream, BufferedInput.peek]
      rw [List.head?_append_of_ne_nil]
      simp only [ne_eq, List.drop_eq_nil_iff]
      omega

/-- A `takeWhile` is the `take` of its own length. -/
theorem takeWhile_eq_take_length {p : Char → Bool} (l : List Char) :
    l.takeWhile p = l.take (l.takeWhile p).length :=
  List.prefix_iff_eq_take.mp (List.takeWhile_prefix p)

/-- Specification of `BufferedInput::read_until`: same count and final state
as `skip_until`, and `out` receives exactly the consumed characters. -/
theorem BufferedInput.read_until_spec (st : BufferedInput) (f : Char → Bool)
    (out : List Char) :
    (st.read_until f out).1 = (st.skip_until f).1 ∧
    (st.read_until f out).2.1 = (st.skip_until f).2 ∧
    (st.read_until f out).2.2 = out ++ st.stream.take (st.read_until f out).1 := by
  have hle : (st.buffer.takeWhile fun c => !f c).length ≤ st.buffer.length :=
    (List.takeWhile_prefix _).length_le
  simp only [BufferedInput.read_until, BufferedInput.skip_until, scanBufferLoop_fst,
    scanBufferLoop_snd]
  by_cases hempty : (st.buffer.drop (st.buffer.takeWhile fun c => !f c).length).isEmpty
  · have hcc : (st.buffer.takeWhile fun c => !f c).length = st.buffer.length := by
      simp only [List.isEmpty_iff, List.drop_eq_nil_iff] at hempty
      omega
    have hfull : st.buffer.takeWhile (fun c => !f c) = st.buffer :=
      takeWhile_eq_self_of_length hcc
    simp only [hempty, if_true, skipIterLoop_spec, readIterLoop_spec]
    refine ⟨by trivial, by trivial, ?_⟩
    have e : (st.buffer ++ st.input).take
        ((st.buffer.takeWhile fun c => !f c).length
          + (st.input.takeWhile fun c => !f c).length)
        = st.buffer ++ st.input.take (st.input.takeWhile fun c => !f c).length := by
      rw [List.take_append_eq_append_take, List.take_of_length_le (by omega), hcc,
        Nat.add_sub_cancel_left]
    simp only [BufferedInput.stream]
    rw [e, hfull, List.append_assoc]
  · simp only [hempty, if_false, Bool.false_eq_true]
    refine ⟨by trivial, by trivial, ?_⟩
    have e : (st.buffer ++ st.input).take (st.buffer.takeWhile fun c => !f c).length
        = st.buffer.take (st.buffer.takeWhile fun c => !f c).length := by
      rw [List.take_append_eq_append_take, Nat.sub_eq_zero_of_le hle, List.take_zero,
        List.append_nil]
    simp only [BufferedInput.stream]
    rw [e, ← takeWhile_eq_take_length]

/-- Reassembling a padded take: take, NUL padding, then drop equals the whole
list followed by the padding. -/
theorem padTake_identity (k : Nat) (l : List Char) :
    l.take k ++ List.replicate (k - l.length) '\x00' ++ l.drop k
      = l ++ List.replicate (k - l.length) '\x00' := by
  by_cases hk : k ≤ l.length
  · rw [Nat.sub_eq_zero_of_le hk]
    simp [List.take_append_drop]
  · push_neg at hk
    rw [List.take_of_length_le (by omega), List.drop_eq_nil_of_le (by omega)]
    simp

/-- Closed form of the push loop of `BufferedInput::lookahead`: when the
result fits the deque, exactly `k` characters are drawn from the source, and
the buffer receives them, NUL-padded once the source is exhausted. -/
theorem BufferedInput.lookaheadAux_spec (k : Nat) (st : BufferedInput)
    (h : st.buffer.length + k ≤ BufferedInput.BUFFER_LEN) :
    BufferedInput.lookaheadAux k st = some
      { input := st.input.drop k,
        buffer := st.buffer ++ (st.input.take k
          ++ List.replicate (k - st.input.length) '\x00') } := by
  induction k generalizing st with
  | zero => simp [BufferedInput.lookaheadAux]
  | succ k ih =>
    have hlt : st.buffer.length < BufferedInput.BUFFER_LEN := by omega
    cases hinput : st.input with
    | nil =>
      simp only [BufferedInput.lookaheadAux, hinput, BufferedInput.pushBack, hlt, if_pos,
        Option.bind_eq_bind, Option.some_bind]
      rw [ih _ (by simp; omega)]
      simp [hinput, List.replicate_succ]
    | cons c rest =>
      simp only [BufferedInput.lookaheadAux, hinput, BufferedInput.pushBack, hlt, if_pos,
        Option.bind_eq_bind, Option.some_bind]
      rw [ih _ (by simp; omega)]
      simp only [Option.some.injEq, BufferedInput.mk.injEq, List.drop_succ_cons,
        List.take_succ_cons, List.length_cons, true_and]
      rw [List.append_assoc]
      simp [Nat.succ_sub_succ]

/-- Closed form of `BufferedInput::lookahead` for requests within the deque
capacity: never fails, draws exactly `n - buflen` characters from the source
(NUL-padding when the source ends), and does not consume. -/
theorem BufferedInput.lookahead_spec (st : BufferedInput) (n : Nat)
    (h : n ≤ BufferedInput.BUFFER_LEN) :
    st.lookahead n = some
      { input := st.input.drop (n - st.buffer.length),
        buffer := st.buffer ++ (st.input.take (n - st.buffer.length)
          ++ List.replicate ((n - st.buffer.length) - st.input.length) '\x00') } := by
  by_cases hn : n ≤ st.buffer.length
  · rw [Nat.sub_eq_zero_of_le hn]
    simp [BufferedInput.lookahead, hn]
  · push_neg at hn
    unfold BufferedInput.lookahead
    rw [if_neg (by omega)]
    exact BufferedInput.lookaheadAux_spec _ _ (by omega)

/-- After `lookahead n` (within capacity), the buffer holds `max buflen n`
characters. -/
theorem BufferedInput.lookahead_buflen (st : BufferedInput) (n : Nat)
    (h : n ≤ BufferedInput.BUFFER_LEN) {st' : BufferedInput}
    (h' : st.lookahead n = some st') :
    st'.buffer.length = max st.buffer.length n := by
  rw [BufferedInput.lookahead_spec st n h] at h'
  cases h'
  simp only [List.length_append, List.length_take, List.length_replicate]
  omega

/-- After `lookahead n` (within capacity), the stream is unchanged except for
NUL padding past the end of the source. -/
theorem BufferedInput.lookahead_stream (st : BufferedInput) (n : Nat)
    (h : n ≤ BufferedInput.BUFFER_LEN) {st' : BufferedInput}
    (h' : st.lookahead n = some st') :
    st'.stream = st.stream
      ++ List.replicate ((n - st.buffer.length) - st.input.length) '\x00' := by
  rw [BufferedInput.lookahead_spec st n h] at h'
  cases h'
  simp only [BufferedInput.stream]
  rw [List.append_assoc, List.append_assoc, ← List.append_assoc (st.input.take _),
    padTake_identity, List.append_assoc]

/-- `getD` with NUL default ignores NUL padding. -/
theorem getD_append_replicate_nul (l : List Char) (m k : Nat) :
    (l ++ List.replicate m '\x00').getD k '\x00' = l.getD k '\x00' := by
  rw [List.getD_eq_getElem?_getD, List.getD_eq_getElem?_getD]
  by_cases hk : k < l.length
  · rw [List.getElem?_append_left hk]
  · push_neg at hk
    rw [List.getElem?_append_right hk]
    have h1 : l[k]? = none := List.getElem?_eq_none hk
    rw [h1, List.getElem?_replicate]
    by_cases hk2 : k - l.length < m
    · simp [hk2]
    · simp [hk2]

/-- After `lookahead n` (within capacity), `peek_nth k` for `k < n` returns
the `k`-th unconsumed stream character, NUL past the end of the stream. -/
theorem BufferedInput.lookahead_peek_nth (st : BufferedInput) (n : Nat)
    (h : n ≤ BufferedInput.BUFFER_LEN) {st' : BufferedInput}
    (h' : st.lookahead n = some st') (k : Nat) (hk : k < n) :
    st'.peek_nth k = some (st.stream.getD k '\x00') := by
  have hlen := BufferedInput.lookahead_buflen st n h h'
  have hstream := BufferedInput.lookahead_stream st n h h'
  have hk' : k < st'.buffer.length := by omega
  have hk2 : k < st'.stream.length := by
    have : st'.stream.length = st'.buffer.length + st'.input.length := by
      simp [BufferedInput.stream]
    omega
  unfold BufferedInput.peek_nth
  have e1 : st'.buffer[k]? = st'.stream[k]? := by
    simp only [BufferedInput.stream]
    exact (List.getElem?_append_left hk').symm
  rw [e1]
  rw [List.getElem?_eq_getElem hk2]
  have e2 : st'.stream[k] = st'.stream.getD k '\x00' := by
    rw [List.getD_eq_getElem?_getD, List.getElem?_eq_getElem hk2, Option.getD_some]
  rw [e2, hstream, getD_append_replicate_nul]

/-- `BufferedInput::peek` agrees with `peek_nth 0`. -/
theorem BufferedInput.peek_eq_peek_nth_zero (st : BufferedInput) :
    st.peek = st.peek_nth 0 := by
  unfold BufferedInput.peek BufferedInput.peek_nth
  rw [List.head?_eq_getElem?]

/-- `peek_nth` on a `StrInput` buffer is `getD` with NUL default. -/
theorem peekNthChars_eq_getD (l : List Char) (n : Nat) :
    peekNthChars l n = l.getD n '\x00' := by
  induction l generalizing n with
  | nil => cases n <;> rfl
  | cons c rest ih =>
    cases n with
    | zero => rfl
    | succ n => simpa [peekNthChars] using ih n

/-- The buffer of a `StrInput` is untouched by every operation except for
consuming a prefix: `lookaheadCount` after a trace is the largest lookahead
request, starting from the initial count. -/
theorem SOp.exec_lookaheadCount (ops : List SOp) (st : StrInput) :
    (SOp.exec ops st).lookaheadCount = max st.lookaheadCount (SOp.maxLookahead ops) := by
  induction ops generalizing st with
  | nil => simp [SOp.exec, SOp.maxLookahead]
  | cons op rest ih =>
    cases op with
    | lookahead n =>
      simp only [SOp.exec, SOp.step, SOp.maxLookahead, StrInput.lookahead, ih]
      omega
    | skip =>
      simp only [SOp.exec, SOp.step, SOp.maxLookahead, ih]
      congr 1
      unfold StrInput.skip
      cases st.buffer <;> rfl
    | skip_n n => simp [SOp.exec, SOp.step, SOp.maxLookahead, ih, StrInput.skip_n]
    | skip_until f =>
      simp [SOp.exec, SOp.step, SOp.maxLookahead, ih, StrInput.skip_until]
    | read_until f =>
      simp [SOp.exec, SOp.step, SOp.maxLookahead, ih, StrInput.read_until]

/-- Under its documented precondition, no `BufferedInput` operation panics. -/
theorem BOp.step_isSome (op : BOp) (st : BufferedInput) (hpre : op.pre st) :
    ∃ st', op.step st = some st' := by
  cases op with
  | lookahead n =>
    exact ⟨_, BufferedInput.lookahead_spec st n hpre⟩
  | peek =>
    have h1 : 1 ≤ st.buffer.length := hpre
    cases hb : st.buffer with
    | nil => simp [hb] at h1
    | cons c rest => exact ⟨st, by simp [BOp.step, BufferedInput.peek, hb]⟩
  | peek_nth k =>
    have h1 : k < st.buffer.length := hpre
    exact ⟨st, by simp [BOp.step, BufferedInput.peek_nth, List.getElem?_eq_getElem h1]⟩
  | skip => exact ⟨_, rfl⟩
  | skip_n n =>
    have h1 : n ≤ st.buffer.length := hpre
    exact ⟨{ st with buffer := st.buffer.drop n },
      by simp [BOp.step, BufferedInput.skip_n, h1]⟩
  | skip_until f => exact ⟨_, rfl⟩
  | read_until f => exact ⟨_, rfl⟩

/-- Every character of the stream after one operation was already in the
stream before it, or is NUL padding. -/
theorem BOp.step_mem (op : BOp) (st st' : BufferedInput) (hpre : op.pre st)
    (hstep : op.step st = some st') :
    ∀ c ∈ st'.stream, c ∈ st.stream ∨ c = '\x00' := by
  intro c hc
  cases op with
  | lookahead n =>
    have hs := BufferedInput.lookahead_stream st n hpre hstep
    rw [hs] at hc
    rcases List.mem_append.mp hc with h | h
    · exact Or.inl h
    · exact Or.inr (List.eq_of_mem_replicate h)
  | peek =>
    simp only [BOp.step, Option.map_eq_some'] at hstep
    obtain ⟨_, _, rfl⟩ := hstep
    exact Or.inl hc
  | peek_nth k =>
    simp only [BOp.step, Option.map_eq_some'] at hstep
    obtain ⟨_, _, rfl⟩ := hstep
    exact Or.inl hc
  | skip =>
    simp only [BOp.step, Option.some.injEq] at hstep
    subst hstep
    simp only [BufferedInput.skip, BufferedInput.stream] at hc ⊢
    rcases List.mem_append.mp hc with h | h
    · exact Or.inl (List.mem_append.mpr (Or.inl (List.mem_of_mem_tail h)))
    · exact Or.inl (List.mem_append.mpr (Or.inr h))
  | skip_n n =>
    have h1 : n ≤ st.buffer.length := hpre
    simp only [BOp.step, BufferedInput.skip_n, h1, if_pos, Option.some.injEq] at hstep
    subst hstep
    simp only [BufferedInput.stream] at hc ⊢
    rcases List.mem_append.mp hc with h | h
    · exact Or.inl (List.mem_append.mpr (Or.inl (List.drop_subset _ _ h)))
    · exact Or.inl (List.mem_append.mpr (Or.inr h))
  | skip_until f =>
    simp only [BOp.step, Option.some.injEq] at hstep
    subst hstep
    have hs := (BufferedInput.skip_until_spec st f).2.1
    rw [hs] at hc
    exact Or.inl (List.drop_subset _ _ hc)
  | read_until f =>
    simp only [BOp.step, Option.some.injEq] at hstep
    subst hstep
    have he := (BufferedInput.read_until_spec st f []).2.1
    rw [he] at hc
    have hs := (BufferedInput.skip_until_spec st f).2.1
    rw [hs] at hc
    exact Or.inl (List.drop_subset _ _ hc)

/-- A trace that respects the preconditions never panics, and afterwards the
stream only holds original characters and NUL padding. -/
theorem BOp.exec_spec (ops : List BOp) (st : BufferedInput)
    (hv : BOp.validTrace ops st) :
    ∃ st', BOp.exec ops st = some st' ∧
      ∀ c ∈ st'.stream, c ∈ st.stream ∨ c = '\x00' := by
  induction ops generalizing st with
  | nil => exact ⟨st, rfl, fun c hc => Or.inl hc⟩
  | cons op rest ih =>
    obtain ⟨hpre, hrest⟩ := hv
    obtain ⟨st1, hstep⟩ := BOp.step_isSome op st hpre
    obtain ⟨st2, hexec, hmem⟩ := ih st1 (hrest st1 hstep)
    refine ⟨st2, ?_, ?_⟩
    · simp [BOp.exec, hstep, hexec]
    · intro c hc
      rcases hmem c hc with h | h
      · exact BOp.step_mem op st st1 hpre hstep c h
      · exact Or.inr h

/-- `StrInput::peek` agrees with `peek_nth 0`. -/
theorem StrInput.peek_eq_nth_zero (st : StrInput) : st.peek = st.peek_nth 0 := by
  unfold StrInput.peek StrInput.peek_nth
  cases st.buffer <;> rfl

/-- Head (with NUL default) of a drop is `getD` at the index. -/
theorem headD_drop_eq (l : List Char) (n : Nat) :
    (l.drop n).headD '\x00' = l.getD n '\x00' := by
  rw [List.headD_eq_head?_getD, head?_drop_eq, List.getD_eq_getElem?_getD]

/-! ## Claims -/

/-- C1: for both input implementations, after `lookahead n` with
`n ≤ bufmaxlen`, `peek_nth k` for every `k < n` returns the `k`-th
not-yet-consumed character of the stream when more than `k` characters
remain (`List.getD _ k '\x00'` is exactly that character, and NUL
otherwise); `peek` agrees with `peek_nth 0`; the peeks are pure functions of
the state and consume nothing, and the `StrInput` buffer is unchanged by
`lookahead`. -/
theorem claim1_lookahead_peek (st : BufferedInput) (sst : StrInput) (n k : Nat)
    (hn : n ≤ st.bufmaxlen) (hns : n ≤ sst.bufmaxlen) (hk : k < n) :
    (∃ st', st.lookahead n = some st' ∧
      st'.peek_nth k = some (st.stream.getD k '\x00') ∧
      st'.peek = st'.peek_nth 0) ∧
    ((sst.lookahead n).peek_nth k = sst.buffer.getD k '\x00' ∧
      (sst.lookahead n).buffer = sst.buffer ∧
      (sst.lookahead n).peek = (sst.lookahead n).peek_nth 0) := by
  refine ⟨?_, ?_, rfl, StrInput.peek_eq_nth_zero _⟩
  · obtain ⟨st', hla⟩ : ∃ st', st.lookahead n = some st' :=
      ⟨_, BufferedInput.lookahead_spec st n hn⟩
    exact ⟨st', hla, BufferedInput.lookahead_peek_nth st n hn hla k hk,
      BufferedInput.peek_eq_peek_nth_zero st'⟩
  · simp only [StrInput.lookahead, StrInput.peek_nth]
    exact peekNthChars_eq_getD _ _

/-- C1 witness. -/
theorem claim1_witness :
    (2 ≤ (BufferedInput.new ['a', 'b']).bufmaxlen
        ∧ 2 ≤ (StrInput.new ['x']).bufmaxlen ∧ 1 < 2) ∧
      ((∃ st', (BufferedInput.new ['a', 'b']).lookahead 2 = some st' ∧
        st'.peek_nth 1 = some ((BufferedInput.new ['a', 'b']).stream.getD 1 '\x00') ∧
        st'.peek = st'.peek_nth 0) ∧
      (((StrInput.new ['x']).lookahead 2).peek_nth 1
          = (StrInput.new ['x']).buffer.getD 1 '\x00' ∧
        ((StrInput.new ['x']).lookahead 2).buffer = (StrInput.new ['x']).buffer ∧
        ((StrInput.new ['x']).lookahead 2).peek
          = ((StrInput.new ['x']).lookahead 2).peek_nth 0)) :=
  ⟨⟨by decide, by decide, by decide⟩,
    claim1_lookahead_peek (BufferedInput.new ['a', 'b']) (StrInput.new ['x']) 2 1
      (by decide) (by decide) (by decide)⟩

/-- C2: `skip_until f` on either implementation consumes exactly the longest
prefix of the remaining stream on which `f` is false (its length is the
returned count), and when a character satisfying `f` exists it is left
unconsumed as the next peeked character. -/
theorem claim2_skip_until (f : Char → Bool) (st : BufferedInput) (sst : StrInput) :
    ((st.skip_until f).1 = (st.stream.takeWhile fun c => !f c).length ∧
      (st.skip_until f).2.stream = st.stream.drop (st.skip_until f).1 ∧
      ((st.skip_until f).1 < st.stream.length →
        f (st.stream.getD (st.skip_until f).1 '\x00') = true ∧
        (st.skip_until f).2.peek = some (st.stream.getD (st.skip_until f).1 '\x00'))) ∧
    ((sst.skip_until f).1 = (sst.buffer.takeWhile fun c => !f c).length ∧
      (sst.skip_until f).2.buffer = sst.buffer.drop (sst.skip_until f).1 ∧
      ((sst.skip_until f).1 < sst.buffer.length →
        f (sst.buffer.getD (sst.skip_until f).1 '\x00') = true ∧
        (sst.skip_until f).2.peek = sst.buffer.getD (sst.skip_until f).1 '\x00')) := by
  obtain ⟨h1, h2, h3⟩ := BufferedInput.skip_until_spec st f
  refine ⟨⟨h1, h2, fun hlt => ?_⟩, ?_, ?_, fun hlt => ?_⟩
  · constructor
    · rw [h1] at hlt ⊢
      exact takeWhile_stop f st.stream hlt
    · rw [h3, h2, head?_drop_eq, List.getElem?_eq_getElem (by omega),
        List.getD_eq_getElem?_getD, List.getElem?_eq_getElem (by omega), Option.getD_some]
  · simp only [StrInput.skip_until]
    exact skipUntilChars_fst f sst.buffer
  · simp only [StrInput.skip_until]
    exact skipUntilChars_snd f sst.buffer
  · constructor
    · simp only [StrInput.skip_until] at hlt ⊢
      rw [skipUntilChars_fst] at hlt ⊢
      exact takeWhile_stop f sst.buffer hlt
    · simp only [StrInput.skip_until, StrInput.peek]
      rw [skipUntilChars_snd, skipUntilChars_fst] at *
      exact headD_drop_eq _ _

/-- C2 witness: skipping to the first blank of `"ab c"` on both inputs. -/
theorem claim2_witness :
    (((BufferedInput.new ['a', 'b', ' ', 'c']).skip_until is_blank).1
        = ((BufferedInput.new ['a', 'b', ' ', 'c']).stream.takeWhile
            fun c => !is_blank c).length ∧
      ((BufferedInput.new ['a', 'b', ' ', 'c']).skip_until is_blank).2.stream
        = (BufferedInput.new ['a', 'b', ' ', 'c']).stream.drop
            ((BufferedInput.new ['a', 'b', ' ', 'c']).skip_until is_blank).1 ∧
      (((BufferedInput.new ['a', 'b', ' ', 'c']).skip_until is_blank).1
          < (BufferedInput.new ['a', 'b', ' ', 'c']).stream.length →
        is_blank ((BufferedInput.new ['a', 'b', ' ', 'c']).stream.getD
            ((BufferedInput.new ['a', 'b', ' ', 'c']).skip_until is_blank).1 '\x00')
          = true ∧
        ((BufferedInput.new ['a', 'b', ' ', 'c']).skip_until is_blank).2.peek
          = some ((BufferedInput.new ['a', 'b', ' ', 'c']).stream.getD
              ((BufferedInput.new ['a', 'b', ' ', 'c']).skip_until is_blank).1 '\x00'))) ∧
    (((StrInput.new ['a', 'b', ' ', 'c']).skip_until is_blank).1
        = ((StrInput.new ['a', 'b', ' ', 'c']).buffer.takeWhile
            fun c => !is_blank c).length ∧
      ((StrInput.new ['a', 'b', ' ', 'c']).skip_until is_blank).2.buffer
        = (StrInput.new ['a', 'b', ' ', 'c']).buffer.drop
            ((StrInput.new ['a', 'b', ' ', 'c']).skip_until is_blank).1 ∧
      (((StrInput.new ['a', 'b', ' ', 'c']).skip_until is_blank).1
          < (StrInput.new ['a', 'b', ' ', 'c']).buffer.length →
        is_blank ((StrInput.new ['a', 'b', ' ', 'c']).buffer.getD
            ((StrInput.new ['a', 'b', ' ', 'c']).skip_until is_blank).1 '\x00')
          = true ∧
        ((StrInput.new ['a', 'b', ' ', 'c']).skip_until is_blank).2.peek
          = (StrInput.new ['a', 'b', ' ', 'c']).buffer.getD
              ((StrInput.new ['a', 'b', ' ', 'c']).skip_until is_blank).1 '\x00')) :=
  claim2_skip_until is_blank (BufferedInput.new ['a', 'b', ' ', 'c'])
    (StrInput.new ['a', 'b', ' ', 'c'])

/-- C6: `read_until f out` on either implementation returns the same count
and reaches the same state as `skip_until f`, and appends to `out` exactly
the consumed characters in stream order (the stopping character is neither
consumed nor appended). -/
theorem claim6_read_until (f : Char → Bool) (st : BufferedInput) (sst : StrInput)
    (out : List Char) :
    ((st.read_until f out).1 = (st.skip_until f).1 ∧
      (st.read_until f out).2.1 = (st.skip_until f).2 ∧
      (st.read_until f out).2.2 = out ++ st.stream.take (st.read_until f out).1) ∧
    ((sst.read_until f out).1 = (sst.skip_until f).1 ∧
      (sst.read_until f out).2.1 = (sst.skip_until f).2 ∧
      (sst.read_until f out).2.2 = out ++ sst.buffer.take (sst.read_until f out).1) := by
  refine ⟨BufferedInput.read_until_spec st f out, ?_, ?_, ?_⟩
  · simp only [StrInput.read_until, StrInput.skip_until]
    exact readUntilChars_fst f sst.buffer
  · simp only [StrInput.read_until, StrInput.skip_until, StrInput.mk.injEq]
    exact ⟨readUntilChars_snd f sst.buffer, trivial⟩
  · simp only [StrInput.read_until]
    rw [readUntilChars_consumed]

/-- C6 witness: reading to the first blank of `"ab c"` on both inputs. -/
theorem claim6_witness :
    (((BufferedInput.new ['a', 'b', ' ', 'c']).read_until is_blank ['o']).1
        = ((BufferedInput.new ['a', 'b', ' ', 'c']).skip_until is_blank).1 ∧
      ((BufferedInput.new ['a', 'b', ' ', 'c']).read_until is_blank ['o']).2.1
        = ((BufferedInput.new ['a', 'b', ' ', 'c']).skip_until is_blank).2 ∧
      ((BufferedInput.new ['a', 'b', ' ', 'c']).read_until is_blank ['o']).2.2
        = ['o'] ++ (BufferedInput.new ['a', 'b', ' ', 'c']).stream.take
            ((BufferedInput.new ['a', 'b', ' ', 'c']).read_until is_blank ['o']).1) ∧
    (((StrInput.new ['a', 'b', ' ', 'c']).read_until is_blank ['o']).1
        = ((StrInput.new ['a', 'b', ' ', 'c']).skip_until is_blank).1 ∧
      ((StrInput.new ['a', 'b', ' ', 'c']).read_until is_blank ['o']).2.1
        = ((StrInput.new ['a', 'b', ' ', 'c']).skip_until is_blank).2 ∧
      ((StrInput.new ['a', 'b', ' ', 'c']).read_until is_blank ['o']).2.2
        = ['o'] ++ (StrInput.new ['a', 'b', ' ', 'c']).buffer.take
            ((StrInput.new ['a', 'b', ' ', 'c']).read_until is_blank ['o']).1) :=
  claim6_read_until is_blank (BufferedInput.new ['a', 'b', ' ', 'c'])
    (StrInput.new ['a', 'b', ' ', 'c']) ['o']

/-- C8: `lookahead n` loads no more than requested.  For `BufferedInput`
(with `n ≤ bufmaxlen`) it draws exactly `n - buflen` characters from the
iterator (`0` when `buflen ≥ n`, Nat subtraction), NUL-padding once the
iterator is exhausted, after which `buflen = max buflen n`; the logical
stream is unchanged except for that padding.  For `StrInput` it reads and
consumes nothing. -/
theorem claim8_lookahead_loads (st : BufferedInput) (sst : StrInput) (n : Nat)
    (h : n ≤ st.bufmaxlen) :
    (∃ st', st.lookahead n = some st' ∧
      st'.input = st.input.drop (n - st.buflen) ∧
      st'.buflen = max st.buflen n ∧
      st'.stream = st.stream
        ++ List.replicate ((n - st.buflen) - st.input.length) '\x00') ∧
    ((sst.lookahead n).buffer = sst.buffer) := by
  refine ⟨⟨_, BufferedInput.lookahead_spec st n h, ?_, ?_, ?_⟩, rfl⟩
  · rfl
  · exact BufferedInput.lookahead_buflen st n h (BufferedInput.lookahead_spec st n h)
  · exact BufferedInput.lookahead_stream st n h (BufferedInput.lookahead_spec st n h)

/-- C8 witness: `lookahead 4` over a two-character iterator. -/
theorem claim8_witness :
    4 ≤ (BufferedInput.new ['a', 'b']).bufmaxlen ∧
    (∃ st', (BufferedInput.new ['a', 'b']).lookahead 4 = some st' ∧
      st'.input = (BufferedInput.new ['a', 'b']).input.drop
        (4 - (BufferedInput.new ['a', 'b']).buflen) ∧
      st'.buflen = max (BufferedInput.new ['a', 'b']).buflen 4 ∧
      st'.stream = (BufferedInput.new ['a', 'b']).stream
        ++ List.replicate ((4 - (BufferedInput.new ['a', 'b']).buflen)
            - (BufferedInput.new ['a', 'b']).input.length) '\x00') ∧
    ((StrInput.new ['x']).lookahead 4).buffer = (StrInput.new ['x']).buffer :=
  ⟨by decide,
    claim8_lookahead_loads (BufferedInput.new ['a', 'b']) (StrInput.new ['x']) 4
      (by decide)⟩

/-- C9: for `StrInput`, after any sequence of operations from a fresh input,
`buflen` is exactly the largest count passed to `lookahead` so far (0 before
any call) — consuming operations never decrease it; `bufmaxlen` is the
constant 128 for `StrInput` and 16 for `BufferedInput`. -/
theorem claim9_buflen_counter (s : List Char) (ops : List SOp) (st : BufferedInput)
    (sst : StrInput) :
    (SOp.exec ops (StrInput.new s)).buflen = SOp.maxLookahead ops ∧
    sst.bufmaxlen = 128 ∧ st.bufmaxlen = 16 := by
  refine ⟨?_, rfl, rfl⟩
  rw [StrInput.buflen, SOp.exec_lookaheadCount]
  simp [StrInput.new]

/-- A `getD` value is an element of the list or the default. -/
theorem getD_mem_or_default (l : List Char) (k : Nat) :
    l.getD k '\x00' ∈ l ∨ l.getD k '\x00' = '\x00' := by
  by_cases hk : k < l.length
  · rw [List.getD_eq_getElem l _ hk]
    exact Or.inl (List.getElem_mem hk)
  · push_neg at hk
    exact Or.inr (List.getD_eq_default l _ hk)

/-- Operations on a `StrInput` only consume: the buffer after a trace is made
of characters of the initial buffer. -/
theorem SOp.exec_buffer_subset (ops : List SOp) (st : StrInput) :
    ∀ c ∈ (SOp.exec ops st).buffer, c ∈ st.buffer := by
  induction ops generalizing st with
  | nil => exact fun c hc => hc
  | cons op rest ih =>
    intro c hc
    have h1 := ih (op.step st) c hc
    cases op with
    | lookahead n => exact h1
    | skip =>
      obtain ⟨buf, la⟩ := st
      cases buf with
      | nil => exact h1
      | cons a t =>
        simp only [SOp.step, StrInput.skip] at h1
        exact List.mem_cons_of_mem a h1
    | skip_n n =>
      simp only [SOp.step, StrInput.skip_n] at h1
      exact List.drop_subset _ _ h1
    | skip_until f =>
      simp only [SOp.step, StrInput.skip_until] at h1
      rw [skipUntilChars_snd] at h1
      exact List.drop_subset _ _ h1
    | read_until f =>
      simp only [SOp.step, StrInput.read_until] at h1
      rw [readUntilChars_snd, skipUntilChars_snd] at h1
      exact List.drop_subset _ _ h1

/-- C3: the `Input` layer never fails.  For `BufferedInput`, any operation
sequence respecting the documented preconditions (`lookahead` at most
`bufmaxlen`, `peek_nth k` after `lookahead (k+1)`, `skip_n` only for loaded
counts) panics nowhere (`BOp.exec` is `some`), and every observable
character is a character of the original stream or NUL — end of stream only
ever reads as NUL, never as an error value.  The `StrInput` operations are
total functions in this embedding (none of them can panic), and every peek
likewise observes an original character or NUL. -/
theorem claim3_input_never_fails (l : List Char) (ops : List BOp) (sops : List SOp)
    (hv : BOp.validTrace ops (BufferedInput.new l)) :
    (∃ st', BOp.exec ops (BufferedInput.new l) = some st' ∧
      ∀ k c, st'.peek_nth k = some c → c ∈ l ∨ c = '\x00') ∧
    (∀ k, (SOp.exec sops (StrInput.new l)).peek_nth k ∈ l ∨
      (SOp.exec sops (StrInput.new l)).peek_nth k = '\x00') := by
  constructor
  · obtain ⟨st', hexec, hmem⟩ := BOp.exec_spec ops (BufferedInput.new l) hv
    refine ⟨st', hexec, fun k c hkc => ?_⟩
    have hcb : c ∈ st'.buffer := by
      unfold BufferedInput.peek_nth at hkc
      exact List.getElem?_mem hkc
    have hcs : c ∈ st'.stream := List.mem_append.mpr (Or.inl hcb)
    simpa [BufferedInput.new, BufferedInput.stream] using hmem c hcs
  · intro k
    unfold StrInput.peek_nth
    rw [peekNthChars_eq_getD]
    rcases getD_mem_or_default (SOp.exec sops (StrInput.new l)).buffer k with h | h
    · exact Or.inl (SOp.exec_buffer_subset sops (StrInput.new l) _ h)
    · exact Or.inr h

/-- C3 witness: a four-step valid trace over the iterator `"ab"`. -/
theorem claim3_witness :
    BOp.validTrace [BOp.lookahead 3, BOp.peek_nth 2, BOp.skip_n 2, BOp.peek]
      (BufferedInput.new ['a', 'b']) ∧
    ((∃ st', BOp.exec [BOp.lookahead 3, BOp.peek_nth 2, BOp.skip_n 2, BOp.peek]
          (BufferedInput.new ['a', 'b']) = some st' ∧
        ∀ k c, st'.peek_nth k = some c → c ∈ ['a', 'b'] ∨ c = '\x00') ∧
      (∀ k, (SOp.exec [SOp.lookahead 2, SOp.skip] (StrInput.new ['a', 'b'])).peek_nth k
            ∈ ['a', 'b'] ∨
        (SOp.exec [SOp.lookahead 2, SOp.skip] (StrInput.new ['a', 'b'])).peek_nth k
            = '\x00')) := by
  have hv : BOp.validTrace [BOp.lookahead 3, BOp.peek_nth 2, BOp.skip_n 2, BOp.peek]
      (BufferedInput.new ['a', 'b']) := by
    refine ⟨(by decide : (3 : Nat) ≤ 16), fun st1 h1 => ?_⟩
    rw [show (BOp.lookahead 3).step (BufferedInput.new ['a', 'b'])
        = some { input := [], buffer := ['a', 'b', '\x00'] } from rfl] at h1
    cases h1
    refine ⟨(by decide : (2 : Nat) + 1 ≤ 3), fun st2 h2 => ?_⟩
    rw [show (BOp.peek_nth 2).step { input := [], buffer := ['a', 'b', '\x00'] }
        = some { input := [], buffer := ['a', 'b', '\x00'] } from rfl] at h2
    cases h2
    refine ⟨(by decide : (2 : Nat) ≤ 3), fun st3 h3 => ?_⟩
    rw [show (BOp.skip_n 2).step { input := [], buffer := ['a', 'b', '\x00'] }
        = some { input := [], buffer := ['\x00'] } from rfl] at h3
    cases h3
    exact ⟨(by decide : (1 : Nat) ≤ 1), fun _ _ => trivial⟩
  exact ⟨hv, claim3_input_never_fails ['a', 'b']
    [BOp.lookahead 3, BOp.peek_nth 2, BOp.skip_n 2, BOp.peek]
    [SOp.lookahead 2, SOp.skip] hv⟩

/-! ## Bridging bytes and characters -/

/-- `utf8Bytes` of a cons. -/
theorem utf8Bytes_cons (c : Char) (l : List Char) :
    utf8Bytes (c :: l) = utf8EncodeChar c ++ utf8Bytes l := rfl

/-- `utf8Bytes` of an ASCII-headed buffer. -/
theorem bytes_cons_ascii {c : Char} (h : c.toNat < 0x80) (l : List Char) :
    utf8Bytes (c :: l) = c.toNat :: utf8Bytes l := by
  rw [utf8Bytes_cons, utf8EncodeChar_ascii h]
  rfl

/-- The encoding of a non-ASCII character is its lead byte followed by a
nonempty tail of continuation bytes. -/
theorem utf8EncodeChar_nonascii_shape {c : Char} (h : 0x80 ≤ c.toNat) :
    ∃ tl, utf8EncodeChar c = headByte c :: tl ∧ tl ≠ [] := by
  obtain ⟨tl, htl⟩ := utf8EncodeChar_eq_headByte_cons c
  refine ⟨tl, htl, ?_⟩
  intro hnil
  subst hnil
  have hlen : (utf8EncodeChar c).length = 1 := by rw [htl]; rfl
  unfold utf8EncodeChar at hlen
  rw [if_neg (by omega)] at hlen
  split at hlen <;> simp_all
  split at hlen <;> simp_all

/-- A byte-level test against a positive ASCII value forces the first
character. -/
theorem bytes_head_forces {a : Char} (ha0 : 0 < a.toNat) (ha : a.toNat < 0x80)
    {l : List Char} (h : (utf8Bytes l).getD 0 0 = a.toNat) : ∃ t, l = a :: t := by
  cases l with
  | nil => simp [utf8Bytes] at h; omega
  | cons c t =>
    obtain ⟨tl, htl⟩ := utf8EncodeChar_eq_headByte_cons c
    rw [utf8Bytes_cons, htl] at h
    simp only [List.cons_append, List.getD_cons_zero] at h
    by_cases hc : c.toNat < 0x80
    · rw [headByte_ascii hc] at h
      exact ⟨t, by rw [char_eq_of_toNat_eq h]⟩
    · push_neg at hc
      have := headByte_nonascii hc
      omega

/-- A predicate that only holds on ASCII characters gives the same verdict
on a character and on its lead byte cast to `char`. -/
theorem asciiPred_ofNat_headByte {P : Char → Bool}
    (hP : ∀ x : Char, P x = true → x.toNat < 0x80) (c : Char) :
    P (Char.ofNat (headByte c)) = P c := by
  by_cases h : c.toNat < 0x80
  · rw [headByte_ascii h, Char.ofNat_toNat]
  · push_neg at h
    obtain ⟨h1, h2⟩ := headByte_nonascii h
    have hval : (Char.ofNat (headByte c)).toNat = headByte c :=
      char_toNat_ofNat_lt (by omega)
    cases hic : P (Char.ofNat (headByte c)) with
    | false =>
      cases hc : P c with
      | false => rfl
      | true => exact absurd (hP _ hc) (by omega)
    | true =>
      have := hP _ hic
      omega

/-- `is_blank_or_breakz` only holds on ASCII characters. -/
theorem is_blank_or_breakz_ascii {x : Char} (h : is_blank_or_breakz x = true) :
    x.toNat < 0x80 := by
  simp only [is_blank_or_breakz, is_blank, is_breakz, is_break, Bool.or_eq_true,
    beq_iff_eq] at h
  rcases h with (rfl | rfl) | (rfl | rfl) | rfl <;> decide

/-- `is_flow` only holds on ASCII characters. -/
theorem is_flow_ascii {x : Char} (h : is_flow x = true) : x.toNat < 0x80 := by
  simp only [is_flow, Bool.or_eq_true, beq_iff_eq] at h
  rcases h with ((((rfl | rfl) | rfl) | rfl) | rfl) <;> decide

/-- `is_blank` only holds on ASCII characters. -/
theorem is_blank_ascii {x : Char} (h : is_blank x = true) : x.toNat < 0x80 := by
  simp only [is_blank, Bool.or_eq_true, beq_iff_eq] at h
  rcases h with rfl | rfl <;> decide

/-- `is_alpha` only holds on ASCII characters. -/
theorem is_alpha_ascii {x : Char} (h : is_alpha x = true) : x.toNat < 0x80 := by
  simp only [is_alpha, Bool.or_eq_true, Bool.and_eq_true, beq_iff_eq, decide_eq_true_eq]
  at h
  have hz : ('z' : Char).toNat = 122 := by decide
  rcases h with (((⟨_, h2⟩ | ⟨_, h2⟩) | ⟨_, h2⟩) | rfl) | rfl
  · have : x.toNat ≤ ('9' : Char).toNat := h2
    have : ('9' : Char).toNat = 57 := by decide
    omega
  · have : x.toNat ≤ ('z' : Char).toNat := h2
    omega
  · have : x.toNat ≤ ('Z' : Char).toNat := h2
    have : ('Z' : Char).toNat = 90 := by decide
    omega
  · decide
  · decide

/-- Three byte tests against a positive ASCII value force the first three
characters. -/
theorem triple_ascii_bytes_iff (a : Char) (ha0 : 0 < a.toNat) (ha : a.toNat < 0x80)
    (buf : List Char) :
    ((utf8Bytes buf).getD 0 0 = a.toNat ∧ (utf8Bytes buf).getD 1 0 = a.toNat
      ∧ (utf8Bytes buf).getD 2 0 = a.toNat) ↔ ∃ t, buf = a :: a :: a :: t := by
  constructor
  · rintro ⟨h0, h1, h2⟩
    obtain ⟨t1, rfl⟩ := bytes_head_forces ha0 ha h0
    rw [bytes_cons_ascii ha] at h1 h2
    simp only [List.getD_cons_succ] at h1 h2
    obtain ⟨t2, rfl⟩ := bytes_head_forces ha0 ha h1
    rw [bytes_cons_ascii ha] at h2
    simp only [List.getD_cons_succ] at h2
    obtain ⟨t3, rfl⟩ := bytes_head_forces ha0 ha h2
    exact ⟨t3, rfl⟩
  · rintro ⟨t, rfl⟩
    rw [bytes_cons_ascii ha, bytes_cons_ascii ha, bytes_cons_ascii ha]
    simp

/-- Under a three-ASCII-character prefix, the byte-level tail test of the
document-indicator functions equals the character-level blank-or-breakz test
of the fourth character (NUL at end of input). -/
theorem docTail_cond_eq (a : Char) (ha : a.toNat < 0x80) (t : List Char) :
    (((utf8Bytes (a :: a :: a :: t)).length == 3)
        || is_blank_or_breakz (Char.ofNat ((utf8Bytes (a :: a :: a :: t)).getD 3 0)))
      = is_blank_or_breakz (peekNthChars t 0) := by
  rw [bytes_cons_ascii ha, bytes_cons_ascii ha, bytes_cons_ascii ha]
  cases t with
  | nil =>
    simp only [utf8Bytes, peekNthChars]
    rw [show ((a.toNat :: a.toNat :: a.toNat :: ([] : List Nat)).length == 3) = true
      from rfl, Bool.true_or]
    decide
  | cons c4 t4 =>
    obtain ⟨tl, htl⟩ := utf8EncodeChar_eq_headByte_cons c4
    rw [utf8Bytes_cons, htl]
    simp only [List.cons_append, List.length_cons, List.getD_cons_succ,
      List.getD_cons_zero, peekNthChars]
    have hne : (List.length (tl ++ utf8Bytes t4) + 1 + 1 + 1 + 1 == 3) = false := by
      simp
    rw [hne, Bool.false_or]
    exact asciiPred_ofNat_headByte (fun x h => is_blank_or_breakz_ascii h) c4

/-- Character-level reading of `StrInput::next_is_document_start`. -/
theorem StrInput.next_is_document_start_iff (st : StrInput) :
    st.next_is_document_start = true ↔
      ∃ t, st.buffer = '-' :: '-' :: '-' :: t
        ∧ is_blank_or_breakz (peekNthChars t 0) = true := by
  obtain ⟨buf, la⟩ := st
  unfold StrInput.next_is_document_start
  constructor
  · intro h
    by_cases hlen : (utf8Bytes buf).length < 3
    · rw [if_pos hlen] at h
      exact absurd h (by simp)
    · rw [if_neg hlen] at h
      have h' := h
      simp only [Bool.and_eq_true, beq_iff_eq] at h'
      obtain ⟨⟨⟨_, h0⟩, h1⟩, h2⟩ := h'
      obtain ⟨t, rfl⟩ := (triple_ascii_bytes_iff '-' (by decide) (by decide) buf).mp
        ⟨h0, h1, h2⟩
      rw [docTail_cond_eq '-' (by decide) t] at h
      simp only [Bool.and_eq_true] at h
      exact ⟨t, rfl, h.1.1.1⟩
  · rintro ⟨t, rfl, hbz⟩
    rw [if_neg (by rw [bytes_cons_ascii (by decide), bytes_cons_ascii (by decide),
      bytes_cons_ascii (by decide)]; simp)]
    rw [docTail_cond_eq '-' (by decide) t]
    rw [bytes_cons_ascii (by decide), bytes_cons_ascii (by decide),
      bytes_cons_ascii (by decide)]
    simp [hbz]

/-- Character-level reading of `StrInput::next_is_document_end`. -/
theorem StrInput.next_is_document_end_iff (st : StrInput) :
    st.next_is_document_end = true ↔
      ∃ t, st.buffer = '.' :: '.' :: '.' :: t
        ∧ is_blank_or_breakz (peekNthChars t 0) = true := by
  obtain ⟨buf, la⟩ := st
  unfold StrInput.next_is_document_end
  constructor
  · intro h
    by_cases hlen : (utf8Bytes buf).length < 3
    · rw [if_pos hlen] at h
      exact absurd h (by simp)
    · rw [if_neg hlen] at h
      have h' := h
      simp only [Bool.and_eq_true, beq_iff_eq] at h'
      obtain ⟨⟨⟨_, h0⟩, h1⟩, h2⟩ := h'
      obtain ⟨t, rfl⟩ := (triple_ascii_bytes_iff '.' (by decide) (by decide) buf).mp
        ⟨h0, h1, h2⟩
      rw [docTail_cond_eq '.' (by decide) t] at h
      simp only [Bool.and_eq_true] at h
      exact ⟨t, rfl, h.1.1.1⟩
  · rintro ⟨t, rfl, hbz⟩
    rw [if_neg (by rw [bytes_cons_ascii (by decide), bytes_cons_ascii (by decide),
      bytes_cons_ascii (by decide)]; simp)]
    rw [docTail_cond_eq '.' (by decide) t]
    rw [bytes_cons_ascii (by decide), bytes_cons_ascii (by decide),
      bytes_cons_ascii (by decide)]
    simp [hbz]

/-- Character-level reading of `StrInput::next_is_document_indicator`. -/
theorem StrInput.next_is_document_indicator_iff (st : StrInput) :
    st.next_is_document_indicator = true ↔
      ((∃ t, st.buffer = '-' :: '-' :: '-' :: t
          ∧ is_blank_or_breakz (peekNthChars t 0) = true) ∨
        (∃ t, st.buffer = '.' :: '.' :: '.' :: t
          ∧ is_blank_or_breakz (peekNthChars t 0) = true)) := by
  obtain ⟨buf, la⟩ := st
  unfold StrInput.next_is_document_indicator
  constructor
  · intro h
    by_cases hlen : (utf8Bytes buf).length < 3
    · rw [if_pos hlen] at h
      exact absurd h (by simp)
    · rw [if_neg hlen] at h
      have h' := h
      simp only [Bool.and_eq_true, beq_iff_eq, Bool.or_eq_true] at h'
      obtain ⟨⟨⟨_, hor⟩, h01⟩, h12⟩ := h'
      rcases hor with h0 | h0
      · refine Or.inr ?_
        obtain ⟨t, rfl⟩ := (triple_ascii_bytes_iff '.' (by decide) (by decide) buf).mp
          ⟨h0, by rw [← h01]; exact h0, by rw [← h12, ← h01]; exact h0⟩
        rw [docTail_cond_eq '.' (by decide) t] at h
        simp only [Bool.and_eq_true] at h
        exact ⟨t, rfl, h.1.1.1⟩
      · refine Or.inl ?_
        obtain ⟨t, rfl⟩ := (triple_ascii_bytes_iff '-' (by decide) (by decide) buf).mp
          ⟨h0, by rw [← h01]; exact h0, by rw [← h12, ← h01]; exact h0⟩
        rw [docTail_cond_eq '-' (by decide) t] at h
        simp only [Bool.and_eq_true] at h
        exact ⟨t, rfl, h.1.1.1⟩
  · intro hcase
    rcases hcase with ⟨t, rfl, hbz⟩ | ⟨t, rfl, hbz⟩
    · rw [if_neg (by rw [bytes_cons_ascii (by decide), bytes_cons_ascii (by decide),
        bytes_cons_ascii (by decide)]; simp)]
      rw [docTail_cond_eq '-' (by decide) t]
      rw [bytes_cons_ascii (by decide), bytes_cons_ascii (by decide),
        bytes_cons_ascii (by decide)]
      simp [hbz]
    · rw [if_neg (by rw [bytes_cons_ascii (by decide), bytes_cons_ascii (by decide),
        bytes_cons_ascii (by decide)]; simp)]
      rw [docTail_cond_eq '.' (by decide) t]
      rw [bytes_cons_ascii (by decide), bytes_cons_ascii (by decide),
        bytes_cons_ascii (by decide)]
      simp [hbz]

/-- Character-level reading of the default document-start body on
`StrInput`. -/
theorem next_3_are_blankz_iff (st : StrInput) (a : Char) :
    (st.next_3_are a a a && is_blank_or_breakz (st.peek_nth 3)) = true ↔
      ∃ t, st.buffer = a :: a :: a :: t
        ∧ is_blank_or_breakz (peekNthChars t 0) = true := by
  obtain ⟨buf, la⟩ := st
  unfold StrInput.next_3_are StrInput.peek_nth
  match buf with
  | [] => simp [peekNthChars]
  | [c1] => simp [peekNthChars]
  | [c1, c2] => simp [peekNthChars]
  | c1 :: c2 :: c3 :: t =>
    simp only [peekNthChars, Bool.and_eq_true, beq_iff_eq]
    constructor
    · rintro ⟨⟨⟨rfl, rfl⟩, rfl⟩, hbz⟩
      exact ⟨t, rfl, hbz⟩
    · rintro ⟨t', heq, hbz⟩
      obtain ⟨rfl, rfl, rfl, rfl⟩ : c1 = a ∧ c2 = a ∧ c3 = a ∧ t = t' := by
        injection heq with e1 heq
        injection heq with e2 heq
        injection heq with e3 e4
        exact ⟨e1, e2, e3, e4⟩
      exact ⟨⟨⟨rfl, rfl⟩, rfl⟩, hbz⟩

/-- Distributing the default document-indicator body. -/
theorem blankz_and_or_distrib (b p q : Bool) :
    (b && (p || q)) = ((p && b) || (q && b)) := by
  cases b <;> cases p <;> cases q <;> rfl

/-- C4: `StrInput`'s document-indicator overrides return true exactly when
the next three unconsumed characters are `---` (start) or `...` (end; either
for the indicator) and the fourth peeked character reads as a blank, a break
or NUL (`peekNthChars t 0` is NUL at end of input, which this layer
identifies with NUL); and under the precondition that `lookahead 4` was
requested, each override agrees with the default body of the `Input` trait
as it dispatches on `StrInput`. -/
theorem claim4_document_indicators (st : StrInput) (h : 4 ≤ st.buflen) :
    (st.next_is_document_start = true ↔
      ∃ t, st.buffer = '-' :: '-' :: '-' :: t
        ∧ is_blank_or_breakz (peekNthChars t 0) = true) ∧
    (st.next_is_document_end = true ↔
      ∃ t, st.buffer = '.' :: '.' :: '.' :: t
        ∧ is_blank_or_breakz (peekNthChars t 0) = true) ∧
    (st.next_is_document_indicator = true ↔
      ((∃ t, st.buffer = '-' :: '-' :: '-' :: t
          ∧ is_blank_or_breakz (peekNthChars t 0) = true) ∨
        (∃ t, st.buffer = '.' :: '.' :: '.' :: t
          ∧ is_blank_or_breakz (peekNthChars t 0) = true))) ∧
    st.next_is_document_start_default = some st.next_is_document_start ∧
    st.next_is_document_end_default = some st.next_is_document_end ∧
    st.next_is_document_indicator_default = some st.next_is_document_indicator := by
  have estart : st.next_is_document_start
      = (st.next_3_are '-' '-' '-' && is_blank_or_breakz (st.peek_nth 3)) :=
    Bool.coe_iff_coe.mp
      ((st.next_is_document_start_iff).trans (next_3_are_blankz_iff st '-').symm)
  have eend : st.next_is_document_end
      = (st.next_3_are '.' '.' '.' && is_blank_or_breakz (st.peek_nth 3)) :=
    Bool.coe_iff_coe.mp
      ((st.next_is_document_end_iff).trans (next_3_are_blankz_iff st '.').symm)
  have eind : st.next_is_document_indicator
      = (is_blank_or_breakz (st.peek_nth 3)
          && (st.next_3_are '.' '.' '.' || st.next_3_are '-' '-' '-')) := by
    rw [blankz_and_or_distrib]
    apply Bool.coe_iff_coe.mp
    rw [Bool.or_eq_true]
    exact (st.next_is_document_indicator_iff).trans
      (by rw [next_3_are_blankz_iff st '.', next_3_are_blankz_iff st '-']; exact or_comm)
  refine ⟨st.next_is_document_start_iff, st.next_is_document_end_iff,
    st.next_is_document_indicator_iff, ?_, ?_, ?_⟩
  · unfold StrInput.next_is_document_start_default
    rw [if_pos h, estart]
  · unfold StrInput.next_is_document_end_default
    rw [if_pos h, eend]
  · unfold StrInput.next_is_document_indicator_default
    rw [if_pos h, eind]

/-- C4 witness: the buffer `"---\n"` with four characters looked ahead. -/
theorem claim4_witness :
    StrInput.next_is_document_start { buffer := ['-', '-', '-', '\n'], lookaheadCount := 4 }
        = true ∧
    StrInput.next_is_document_start_default
        { buffer := ['-', '-', '-', '\n'], lookaheadCount := 4 } = some true := by
  have h := claim4_document_indicators
    { buffer := ['-', '-', '-', '\n'], lookaheadCount := 4 } (by decide)
  have h1 : StrInput.next_is_document_start
      { buffer := ['-', '-', '-', '\n'], lookaheadCount := 4 } = true :=
    h.1.mpr ⟨['\n'], rfl, by decide⟩
  exact ⟨h1, by rw [h.2.2.2.1, h1]⟩

/-- Byte-value equality of characters via `toNat`. -/
theorem char_beq_via_toNat (c a : Char) : (c.toNat == a.toNat) = (c == a) := by
  apply Bool.coe_iff_coe.mp
  simp only [beq_iff_eq]
  exact ⟨char_eq_of_toNat_eq, fun h => by rw [h]⟩

/-- `StrInput`'s byte-level `next_can_be_plain_scalar` agrees with the
default body whenever the buffer is nonempty. -/
theorem StrInput.next_can_be_plain_scalar_eq (st : StrInput) (in_flow : Bool)
    (hne : st.buffer ≠ []) :
    st.next_can_be_plain_scalar in_flow
      = some (st.next_can_be_plain_scalar_default in_flow) := by
  obtain ⟨buf, la⟩ := st
  cases buf with
  | nil => exact absurd rfl hne
  | cons c1 t =>
    unfold StrInput.next_can_be_plain_scalar StrInput.next_can_be_plain_scalar_default
      StrInput.peek StrInput.peek_nth
    by_cases hc1 : c1.toNat < 0x80
    · rw [bytes_cons_ascii hc1]
      cases t with
      | nil =>
        simp only [utf8Bytes, peekNthChars, List.headD_cons, Option.some.injEq]
        rw [Char.ofNat_toNat, show (0x3A : Nat) = Char.toNat ':' from rfl,
          char_beq_via_toNat]
        rw [show is_blank_or_breakz '\x00' = true from by decide]
        simp
      | cons c2 t2 =>
        obtain ⟨tl2, htl2⟩ := utf8EncodeChar_eq_headByte_cons c2
        rw [utf8Bytes_cons, htl2]
        simp only [List.cons_append, peekNthChars, List.headD_cons, Option.some.injEq]
        rw [Char.ofNat_toNat, show (0x3A : Nat) = Char.toNat ':' from rfl,
          char_beq_via_toNat,
          asciiPred_ofNat_headByte (fun x h => is_blank_or_breakz_ascii h) c2,
          asciiPred_ofNat_headByte (fun x h => is_flow_ascii h) c2]
    · push_neg at hc1
      obtain ⟨tl, htl, htlne⟩ := utf8EncodeChar_nonascii_shape hc1
      cases tl with
      | nil => exact absurd rfl htlne
      | cons b tl2 =>
        rw [utf8Bytes_cons, htl]
        have hhb := headByte_nonascii hc1
        have h58 : (headByte c1 == 58) = false := by
          simp only [beq_eq_false_iff_ne, ne_eq]
          omega
        have hflowhead : is_flow (Char.ofNat (headByte c1)) = false := by
          rw [asciiPred_ofNat_headByte (fun x h => is_flow_ascii h) c1]
          cases hf : is_flow c1 with
          | false => rfl
          | true => exact absurd (is_flow_ascii hf) (by omega)
        have hcolon : (c1 == ':') = false := by
          rw [← char_beq_via_toNat]
          simp only [beq_eq_false_iff_ne, ne_eq, show Char.toNat ':' = 58 from rfl]
          omega
        have hflow1 : is_flow c1 = false := by
          cases hf : is_flow c1 with
          | false => rfl
          | true => exact absurd (is_flow_ascii hf) (by omega)
        simp only [List.cons_append, List.headD_cons, h58, Bool.false_and, if_false,
          hflowhead, Bool.and_false, hcolon, hflow1, Option.some.injEq,
          Bool.false_eq_true, Bool.and_eq_false_imp]

/-- Falsity of a two-guard conditional. -/
theorem if_if_false_iff (a b : Bool) :
    ((if a then false else if b then false else true) = false) ↔ (a = true ∨ b = true) := by
  cases a <;> cases b <;> simp

/-- C5: under the precondition that `lookahead 2` was requested and the next
character is not a blank, break or NUL, `StrInput`'s byte-level
`next_can_be_plain_scalar` returns (without panicking) the same value as the
trait's default body, and both are false exactly when the next character is
`:` followed by a blank, break or NUL (end of input reads as NUL) or, in
flow context, by a flow indicator — or when in flow context the next
character is itself a flow indicator. -/
theorem claim5_plain_scalar (st : StrInput) (in_flow : Bool) (h2 : 2 ≤ st.buflen)
    (hc : is_blank_or_breakz st.peek = false) :
    st.next_can_be_plain_scalar in_flow
        = some (st.next_can_be_plain_scalar_default in_flow) ∧
    (st.next_can_be_plain_scalar_default in_flow = false ↔
      ((st.peek = ':' ∧ (is_blank_or_breakz (st.peek_nth 1) = true
          ∨ (in_flow = true ∧ is_flow (st.peek_nth 1) = true)))
        ∨ (in_flow = true ∧ is_flow st.peek = true))) := by
  have hne : st.buffer ≠ [] := by
    intro hnil
    rw [show st.peek = '\x00' from by rw [StrInput.peek, hnil]; rfl] at hc
    exact absurd hc (by decide)
  refine ⟨st.next_can_be_plain_scalar_eq in_flow hne, ?_⟩
  unfold StrInput.next_can_be_plain_scalar_default
  rw [if_if_false_iff]
  simp [Bool.and_eq_true, Bool.or_eq_true, beq_iff_eq, and_assoc]

/-- C5 witness: the buffer `": "` with two characters looked ahead, in block
context. -/
theorem claim5_witness :
    StrInput.next_can_be_plain_scalar
        { buffer := [':', ' '], lookaheadCount := 2 } false = some false := by
  have h := claim5_plain_scalar { buffer := [':', ' '], lookaheadCount := 2 } false
    (by decide) (by decide)
  rw [h.1, h.2.mpr (Or.inl ⟨rfl, Or.inl (by decide)⟩)]

/-- Byte loop of `skip_ascii_until` equals the character loop of
`skip_until` when the predicate holds on every non-ASCII character, and the
byte offset it reaches is a character boundary. -/
theorem skip_ascii_bytes_eq (f : Char → Bool)
    (hf : ∀ c : Char, 0x80 ≤ c.toNat → f c = true) (l : List Char) :
    asciiBytesLoop f (utf8Bytes l) = (skipUntilChars f l).1 ∧
    dropBytes (asciiBytesLoop f (utf8Bytes l)) l = some (skipUntilChars f l).2 := by
  induction l with
  | nil => exact ⟨rfl, rfl⟩
  | cons c t ih =>
    by_cases hc : c.toNat < 0x80
    · rw [bytes_cons_ascii hc]
      by_cases hfc : f c
      · simp [asciiBytesLoop, Char.ofNat_toNat, hfc, skipUntilChars, dropBytes]
      · have hlen : (utf8EncodeChar c).length = 1 := by rw [utf8EncodeChar_ascii hc]; rfl
        simp only [asciiBytesLoop, Char.ofNat_toNat, hfc, if_false, skipUntilChars,
          Bool.false_eq_true]
        refine ⟨by rw [ih.1], ?_⟩
        rw [show asciiBytesLoop f (utf8Bytes t) + 1
          = (asciiBytesLoop f (utf8Bytes t)) + 1 from rfl]
        unfold dropBytes
        rw [hlen, if_pos (by omega), Nat.add_sub_cancel]
        exact ih.2
    · push_neg at hc
      have hfc : f c = true := hf c hc
      obtain ⟨tl, htl, _⟩ := utf8EncodeChar_nonascii_shape hc
      have hhb := headByte_nonascii hc
      have hfb : f (Char.ofNat (headByte c)) = true := by
        apply hf
        rw [char_toNat_ofNat_lt (by omega)]
        omega
      rw [utf8Bytes_cons, htl]
      simp [asciiBytesLoop, hfb, skipUntilChars, hfc, dropBytes]

/-- C7: for a predicate true on every non-ASCII character,
`skip_ascii_until` consumes the same characters and returns the same count
as `skip_until`: `StrInput`'s byte-level override never panics and equals
`skip_until`, and the trait's default bodies (both implementations) delegate
to `skip_until` outright. -/
theorem claim7_skip_ascii_until (f : Char → Bool) (st : BufferedInput)
    (sst : StrInput) (hf : ∀ c : Char, 0x80 ≤ c.toNat → f c = true) :
    sst.skip_ascii_until f = some (sst.skip_until f) ∧
    sst.skip_ascii_until_default f = sst.skip_until f ∧
    st.skip_ascii_until f = st.skip_until f := by
  obtain ⟨hcount, hdrop⟩ := skip_ascii_bytes_eq f hf sst.buffer
  refine ⟨?_, rfl, rfl⟩
  rw [hcount] at hdrop
  unfold StrInput.skip_ascii_until StrInput.skip_until
  rw [hcount]
  simp [hdrop]

/-- C7 witness: skipping `"ab é"` to the first blank-or-non-ASCII on both
implementations. -/
theorem claim7_witness :
    StrInput.skip_ascii_until (StrInput.new ['a', 'b', ' ', 'é'])
        (fun c => is_blank c || !decide (c.toNat < 0x80))
      = some (StrInput.skip_until (StrInput.new ['a', 'b', ' ', 'é'])
          (fun c => is_blank c || !decide (c.toNat < 0x80))) ∧
    BufferedInput.skip_ascii_until (BufferedInput.new ['a', 'b', ' ', 'é'])
        (fun c => is_blank c || !decide (c.toNat < 0x80))
      = BufferedInput.skip_until (BufferedInput.new ['a', 'b', ' ', 'é'])
          (fun c => is_blank c || !decide (c.toNat < 0x80)) := by
  have h := claim7_skip_ascii_until (fun c => is_blank c || !decide (c.toNat < 0x80))
    (BufferedInput.new ['a', 'b', ' ', 'é']) (StrInput.new ['a', 'b', ' ', 'é'])
    (fun c hc => by simp [decide_eq_true_eq]; omega)
  exact ⟨h.1, h.2.2⟩

/-- The non-breakz loop is the generic loop at `is_breakz`. -/
theorem skipNonBreakzChars_eq (l : List Char) :
    skipNonBreakzChars l = skipUntilChars is_breakz l := by
  induction l with
  | nil => rfl
  | cons c t ih =>
    by_cases h : is_breakz c
    · simp [skipNonBreakzChars, skipUntilChars, h]
    · simp [skipNonBreakzChars, skipUntilChars, h, ih]

/-- Byte loop of `skip_while_blank` equals the character loop of
`skip_until` at the negated blank test, and its byte offset is a character
boundary. -/
theorem skip_blank_bytes_eq (l : List Char) :
    blankBytesLoop (utf8Bytes l) = (skipUntilChars (fun c => !is_blank c) l).1 ∧
    dropBytes (blankBytesLoop (utf8Bytes l)) l
      = some (skipUntilChars (fun c => !is_blank c) l).2 := by
  induction l with
  | nil => exact ⟨rfl, rfl⟩
  | cons c t ih =>
    by_cases hc : c.toNat < 0x80
    · rw [bytes_cons_ascii hc]
      by_cases hbl : is_blank c
      · have hlen : (utf8EncodeChar c).length = 1 := by
          rw [utf8EncodeChar_ascii hc]; rfl
        simp only [blankBytesLoop, Char.ofNat_toNat, hbl, if_true, skipUntilChars,
          Bool.not_true, Bool.false_eq_true, if_false]
        refine ⟨by rw [ih.1], ?_⟩
        unfold dropBytes
        rw [hlen, if_pos (by omega), Nat.add_sub_cancel]
        exact ih.2
      · simp [blankBytesLoop, Char.ofNat_toNat, hbl, skipUntilChars, dropBytes]
    · push_neg at hc
      have hbl : is_blank c = false := by
        cases hb : is_blank c with
        | false => rfl
        | true => exact absurd (is_blank_ascii hb) (by omega)
      obtain ⟨tl, htl, _⟩ := utf8EncodeChar_nonascii_shape hc
      have hblb : is_blank (Char.ofNat (headByte c)) = false := by
        rw [asciiPred_ofNat_headByte (fun x h => is_blank_ascii h) c, hbl]
      rw [utf8Bytes_cons, htl]
      simp [blankBytesLoop, hblb, skipUntilChars, hbl, dropBytes]

/-- The alpha-fetch loop splits the buffer like the generic read loop at the
negated alpha test. -/
theorem fetchAlphaChars_eq (l : List Char) :
    fetchAlphaChars l = ((readUntilChars (fun c => !is_alpha c) l).2.1,
      (readUntilChars (fun c => !is_alpha c) l).2.2) := by
  induction l with
  | nil => rfl
  | cons c t ih =>
    by_cases h : is_alpha c
    · simp [fetchAlphaChars, readUntilChars, h, ih]
    · simp [fetchAlphaChars, readUntilChars, h]

/-- The consumed prefix of the alpha-fetch loop is all alpha. -/
theorem fetchAlphaChars_consumed_alpha (l : List Char) :
    ∀ c ∈ (fetchAlphaChars l).1, is_alpha c = true := by
  induction l with
  | nil => intro c hc; simp [fetchAlphaChars] at hc
  | cons a t ih =>
    intro c hc
    by_cases h : is_alpha a
    · simp only [fetchAlphaChars, h, if_true, List.mem_cons] at hc
      rcases hc with rfl | hc
      · exact h
      · exact ih c hc
    · simp [fetchAlphaChars, h] at hc
  
/-- The UTF-8 length of an all-ASCII buffer is its character count. -/
theorem utf8Len_ascii (p : List Char) (h : ∀ c ∈ p, c.toNat < 0x80) :
    utf8Len p = p.length := by
  induction p with
  | nil => rfl
  | cons c t ih =>
    have e : utf8Len (c :: t) = (utf8EncodeChar c).length + utf8Len t := by
      unfold utf8Len
      rw [utf8Bytes_cons, List.length_append]
    rw [e, utf8EncodeChar_ascii (h c (List.mem_cons_self c t)),
      ih (fun x hx => h x (List.mem_cons_of_mem c hx))]
    simp [Nat.add_comm]

/-- The prefix read by `readUntilChars` has the returned count as length. -/
theorem readUntilChars_consumed_length (f : Char → Bool) (l : List Char) :
    (readUntilChars f l).2.1.length = (readUntilChars f l).1 := by
  induction l with
  | nil => rfl
  | cons c t ih =>
    by_cases h : f c
    · simp [readUntilChars, h]
    · simp [readUntilChars, h, ih]

/-- C10: `StrInput`'s specialized bulk operations match the generic loops:
`skip_while_non_breakz` is `skip_until is_breakz` (the terminating breakz is
put back unconsumed); `skip_while_blank` never panics and equals skipping
while the next character is a space or tab, returning the count;
`fetch_while_is_alpha` equals `read_until` at the negated alpha test — it
consumes exactly the maximal alpha prefix, appends it to `out`, leaves the
first non-alpha character unconsumed, and its byte count equals the
character count. -/
theorem claim10_specialized_ops (sst : StrInput) (out : List Char) :
    sst.skip_while_non_breakz = sst.skip_until is_breakz ∧
    sst.skip_while_blank = some (sst.skip_until fun c => !is_blank c) ∧
    sst.fetch_while_is_alpha out = sst.read_until (fun c => !is_alpha c) out := by
  refine ⟨?_, ?_, ?_⟩
  · unfold StrInput.skip_while_non_breakz StrInput.skip_until
    rw [skipNonBreakzChars_eq]
  · obtain ⟨hcount, hdrop⟩ := skip_blank_bytes_eq sst.buffer
    rw [hcount] at hdrop
    unfold StrInput.skip_while_blank StrInput.skip_until
    rw [hcount]
    simp [hdrop]
  · have he := fetchAlphaChars_eq sst.buffer
    have hlen : utf8Len (fetchAlphaChars sst.buffer).1
        = (readUntilChars (fun c => !is_alpha c) sst.buffer).1 := by
      rw [utf8Len_ascii _ (fun c hc =>
        is_alpha_ascii (fetchAlphaChars_consumed_alpha sst.buffer c hc))]
      rw [he]
      exact readUntilChars_consumed_length _ _
    have hlen2 : utf8Len (readUntilChars (fun c => !is_alpha c) sst.buffer).2.1
        = (readUntilChars (fun c => !is_alpha c) sst.buffer).1 := by
      rw [show (readUntilChars (fun c => !is_alpha c) sst.buffer).2.1
          = (fetchAlphaChars sst.buffer).1 from by rw [he]]
      exact hlen
    unfold StrInput.fetch_while_is_alpha StrInput.read_until
    simp only [he, hlen2]
